import Mathlib

/-!
# cryptstream: a verification development

A shallow embedding of `cryptstream.go` (command `cryptstream`), of the test
`cryptstream_test.go`, of the Go library functions the command calls, and of
the streaming AES-CBC transforms of package `crypt` as the specification
describes them.

Go strings are embedded as Lean `String`s (sequences of Unicode scalar
values), Go byte slices as `List Byte`.
-/

namespace Cryptstream

/-! ## Bytes -/

/-- A Go `byte`. -/
abbrev Byte := Fin 256

/-! ## Go library: `strconv`, `fmt` verbs -/

/-- Go `const lowerhex = "0123456789abcdef"` (packages `strconv`, `encoding/hex`, `fmt`). -/
def lowerhex : List Char :=
  ['0', '1', '2', '3', '4', '5', '6', '7', '8', '9', 'a', 'b', 'c', 'd', 'e', 'f']

/-- The table lookup `lowerhex[i]`. -/
def lowerhexAt (i : Nat) : Char := lowerhex.getD i '0'

/-- Digit loop of `strconv.Itoa` for a non-negative value: the decimal digits of
`n` are pushed in front of `acc`, least significant first. -/
def itoaLoop : Nat → Nat → List Char → List Char
  | 0, _, acc => acc
  | fuel + 1, n, acc =>
    let acc1 := lowerhexAt (n % 10) :: acc
    if n / 10 = 0 then acc1 else itoaLoop fuel (n / 10) acc1

/-- Verb `%d` of `fmt.Sprintf` on a non-negative `int` (`strconv.Itoa`). -/
def itoa (n : Nat) : String := ⟨itoaLoop (n + 1) n []⟩

/-- Go `strconv.IsPrint`. The Latin-1 range is decided by the code of the
function itself; above U+00FF Go consults its Unicode tables, which are the
parameter `table`. -/
def isPrint (table : Char → Bool) (r : Char) : Bool :=
  if r.toNat ≤ 0xFF then
    if 0x20 ≤ r.toNat ∧ r.toNat ≤ 0x7E then true
    else if 0xA1 ≤ r.toNat ∧ r.toNat ≤ 0xFF then r.toNat != 0xAD
    else false
  else table r

/-- The hexadecimal digits `lowerhex[r>>s&0xF]` for `s = 4*(k-1), ..., 4, 0`. -/
def hexDigits : Nat → Nat → List Char
  | 0, _ => []
  | k + 1, r => lowerhexAt (r / 16 ^ k % 16) :: hexDigits k r

/-- Go `strconv.appendEscapedRune` with `quote = '"'`, `ASCIIonly = false`,
`graphicOnly = false`, on a valid rune. -/
def appendEscapedRune (table : Char → Bool) (r : Char) : List Char :=
  if r = '"' ∨ r = '\\' then ['\\', r]
  else if isPrint table r then [r]
  else if r.toNat = 7 then ['\\', 'a']
  else if r.toNat = 8 then ['\\', 'b']
  else if r.toNat = 12 then ['\\', 'f']
  else if r = '\n' then ['\\', 'n']
  else if r = '\r' then ['\\', 'r']
  else if r = '\t' then ['\\', 't']
  else if r.toNat = 11 then ['\\', 'v']
  else if r.toNat < 0x20 ∨ r.toNat = 0x7f then '\\' :: 'x' :: hexDigits 2 r.toNat
  else if r.toNat < 0x10000 then '\\' :: 'u' :: hexDigits 4 r.toNat
  else '\\' :: 'U' :: hexDigits 8 r.toNat

/-- Verb `%q` of `fmt.Sprintf` on a string (`strconv.Quote`): the string in
double quotes with Go escapes. -/
def quote (table : Char → Bool) (s : String) : String :=
  ⟨'"' :: (s.data.flatMap (appendEscapedRune table) ++ ['"'])⟩

/-- Verb `%x` of `fmt.Printf` on a byte slice: two lower-case hexadecimal
digits for every byte. -/
def fmtHex : List Byte → List Char
  | [] => []
  | b :: bs => lowerhexAt (b.val / 16) :: lowerhexAt (b.val % 16) :: fmtHex bs

/-! ## Go library: `encoding/hex` -/

/-- Go `reverseHexTable` of `encoding/hex`: the value of a hexadecimal digit,
`none` where the table holds `0xff`. -/
def fromHexChar (c : Char) : Option Nat :=
  if '0'.toNat ≤ c.toNat ∧ c.toNat ≤ '9'.toNat then some (c.toNat - '0'.toNat)
  else if 'a'.toNat ≤ c.toNat ∧ c.toNat ≤ 'f'.toNat then some (c.toNat - 'a'.toNat + 10)
  else if 'A'.toNat ≤ c.toNat ∧ c.toNat ≤ 'F'.toNat then some (c.toNat - 'A'.toNat + 10)
  else none

/-- Go `hex.Decode`: two digits give the byte `(a << 4) | b`; an invalid digit
or a trailing single digit is an error (`none`). -/
def hexDecode : List Char → Option (List Byte)
  | [] => some []
  | [_] => none
  | p :: q :: rest =>
    match fromHexChar p, fromHexChar q with
    | some a, some b =>
      match hexDecode rest with
      | some bs => some (Fin.ofNat (a * 16 + b) :: bs)
      | none => none
    | _, _ => none

/-- Go `hex.DecodeString`; `none` stands for a non-nil error. -/
def hexDecodeString (s : String) : Option (List Byte) := hexDecode s.data

/-! ## Go library: `path` -/

/-- The test `r+1 == n || path[r+1] == '/'` of `path.Clean`, on the part of the
path that starts at `r+1`. -/
def elemEnds (t : List Char) : Bool :=
  match t with
  | [] => true
  | c :: _ => c == '/'

/-- The backtracking of `path.Clean` at a `..` element, on the reversed output
buffer: `out.w--` followed by
`for out.w > dotdot && out.index(out.w) != '/' { out.w-- }`. -/
def cleanBacktrack (dotdot : Nat) : List Char → List Char
  | [] => []
  | c :: out => if dotdot < out.length ∧ c ≠ '/' then cleanBacktrack dotdot out else out

/-- Main loop of Go `path.Clean`. `rest` is the unread part `path[r:]`, `out`
the output buffer in reverse (`out.w` is its length), `dotdot` the index where
`..` must stop. The fuel bounds the number of iterations by `len(path)`. -/
def cleanLoop (rooted : Bool) : Nat → List Char → List Char → Nat → List Char
  | 0, _, out, _ => out
  | fuel + 1, rest, out, dotdot =>
    match rest with
    | [] => out
    | c :: t =>
      if c = '/' then cleanLoop rooted fuel t out dotdot
      else if c = '.' ∧ elemEnds t then cleanLoop rooted fuel t out dotdot
      else if c = '.' ∧ t.head? = some '.' ∧ elemEnds t.tail then
        if dotdot < out.length then
          cleanLoop rooted fuel t.tail (cleanBacktrack dotdot out) dotdot
        else if !rooted then
          let out1 := if 0 < out.length then '/' :: out else out
          let out2 := '.' :: '.' :: out1
          cleanLoop rooted fuel t.tail out2 out2.length
        else cleanLoop rooted fuel t.tail out dotdot
      else
        let out1 :=
          if (rooted ∧ out.length ≠ 1) ∨ (¬ rooted ∧ out.length ≠ 0) then '/' :: out else out
        cleanLoop rooted fuel (rest.dropWhile (· != '/'))
          ((rest.takeWhile (· != '/')).reverse ++ out1) dotdot

/-- Go `path.Clean`. -/
def pathClean (path : List Char) : List Char :=
  match path with
  | [] => ['.']
  | c :: t =>
    let out :=
      if c = '/' then cleanLoop true path.length t ['/'] 1
      else cleanLoop false path.length path [] 0
    if out.length = 0 then ['.'] else out.reverse

/-- The directory half of Go `path.Split`: `path[:i+1]` for the last index `i`
of a slash, empty when there is none. -/
def pathSplitDir (path : List Char) : List Char :=
  (path.reverse.dropWhile (· != '/')).reverse

/-- Go `path.Dir`: `Clean` of the directory half of `Split`. -/
def pathDir (p : String) : String := ⟨pathClean (pathSplitDir p.data)⟩

/-! ## Package `crypt`: the streaming AES-CBC transforms

Package `bitbucket.org/mjl/cryptstream/crypt` is embedded from the
specification (sections 3, 4, 6 and 7): `Encrypter`, `Decrypter` and what they
are built from. A byte source is the list of chunks it
delivers before it signals its end. -/

/-- Modelled from the spec: a Block of package `crypt` (section 3, "Block:
fixed-size sequence of exactly 16 bytes"). -/
abbrev Block := { l : List Byte // l.length = 16 }

/-- Modelled from the spec: the Block Cipher Primitive that package `crypt`
uses, a trusted external encrypt-one-block and decrypt-one-block operation
parameterised by the key. -/
structure Cipher where
  /-- `Cipher.encrypt(key, block)` -/
  encrypt : List Byte → Block → Block
  /-- `Cipher.decrypt(key, block)` -/
  decrypt : List Byte → Block → Block

/-- Modelled from the spec: the error taxonomy of package `crypt` (section 7). -/
inductive CryptError
  | badKeySize
  | corruptStream
  | badPadding
  deriving DecidableEq, Repr

/-- Modelled from the spec: the text of an error of package `crypt`; the spec
names the errors and does not give their texts, the names stand for them. -/
def CryptError.text : CryptError → String
  | .badKeySize => "BadKeySize"
  | .corruptStream => "CorruptStream"
  | .badPadding => "BadPadding"

/-- Modelled from the spec: a byte stream of package `crypt` read to its end:
the bytes it delivered and the error that ended it, if any. -/
structure Stream where
  /-- the bytes delivered to the consumer -/
  bytes : List Byte
  /-- the error that ended the stream, `none` for a plain end-of-stream -/
  err : Option CryptError
  deriving DecidableEq, Repr

/-- Modelled from the spec: the key invariant of package `crypt`,
"length ∈ {16,24,32}". -/
def validKey (key : List Byte) : Prop :=
  key.length = 16 ∨ key.length = 24 ∨ key.length = 32

instance (key : List Byte) : Decidable (validKey key) := by
  unfold validKey; infer_instance

/-- Modelled from the spec: `plainBlock XOR prevCipher` of the Chaining Core of
package `crypt`, byte by byte. -/
def xorBlock (a b : Block) : Block :=
  ⟨List.zipWith (fun x y => x ^^^ y) a.1 b.1, by
    rw [List.length_zipWith, a.2, b.2]; rfl⟩

/-- Modelled from the spec: `encryptBlock` of the Chaining Core of package
`crypt`, `Cipher.encrypt(key, plainBlock XOR prevCipher)`. -/
def encryptBlock (c : Cipher) (key : List Byte) (plainBlock prevCipher : Block) : Block :=
  c.encrypt key (xorBlock plainBlock prevCipher)

/-- Modelled from the spec: `decryptBlock` of the Chaining Core of package
`crypt`, `Cipher.decrypt(key, cipherBlock) XOR prevCipher`. -/
def decryptBlock (c : Cipher) (key : List Byte) (cipherBlock prevCipher : Block) : Block :=
  xorBlock (c.decrypt key cipherBlock) prevCipher

/-- Modelled from the spec: the padding value of the Padding Codec of package
`crypt`, `p = 16 - n` if `n > 0`, else `p = 16`, for `n` bytes of a last
partial block. -/
def padValue (n : Nat) : Nat := if 0 < n then 16 - n else 16

/-- Modelled from the spec: `pad` of the Padding Codec of package `crypt`: `p`
bytes, each of value `p`, appended to the partial data. -/
def pad (lastPartialBlock : List Byte) : List Byte :=
  lastPartialBlock ++
    List.replicate (padValue lastPartialBlock.length) (Fin.ofNat (padValue lastPartialBlock.length))

/-- Modelled from the spec: `unpad` of the Padding Codec of package `crypt`.
With `p` the value of the last byte it fails with `BadPadding` if `p` is
outside 1..16 or one of the last `p` bytes is not `p`, and returns the first
`16 - p` bytes otherwise. -/
def unpad (finalDecryptedBlock : Block) : Except CryptError (List Byte) :=
  let p := (finalDecryptedBlock.1.getLastD 0).val
  if p < 1 ∨ 16 < p then .error .badPadding
  else if (finalDecryptedBlock.1.drop (16 - p)).all (fun b => b.val == p) then
    .ok (finalDecryptedBlock.1.take (16 - p))
  else .error .badPadding

/-- Modelled from the spec: the Stream Buffer of package `crypt` removing one
Block from an accumulator that holds at least 16 bytes. -/
def takeBlock (acc : List Byte) : Option (Block × List Byte) :=
  if h : 16 ≤ acc.length then
    some (⟨acc.take 16, by rw [List.length_take]; omega⟩, acc.drop 16)
  else none

/-- Modelled from the spec: the state of the encryption side of the Stream
Buffer of package `crypt`: Chain State and Pending Buffer. -/
structure EncState where
  /-- the most recent ciphertext Block -/
  chain : Block
  /-- the bytes not yet forming a complete Block -/
  acc : List Byte

/-- Modelled from the spec: the loop of the encryption side of the Stream
Buffer of package `crypt`: "while the accumulator holds ≥16 bytes, removes and
emits one Block at a time to the Chaining Core, immediately forwarding the
resulting ciphertext Block downstream". Returns the bytes emitted and the new
state; every turn removes 16 bytes, the fuel bounds the turns. -/
def encDrain (c : Cipher) (key : List Byte) : Nat → EncState → List Byte × EncState
  | 0, s => ([], s)
  | fuel + 1, s =>
    match takeBlock s.acc with
    | none => ([], s)
    | some (b, rest) =>
      let cb := encryptBlock c key b s.chain
      let r := encDrain c key fuel ⟨cb, rest⟩
      (cb.1 ++ r.1, r.2)

/-- Modelled from the spec: the encryption side of the Stream Buffer of package
`crypt` when new source bytes arrive: they are appended to the accumulator,
which is then drained of whole Blocks. -/
def encFeed (c : Cipher) (key : List Byte) (s : EncState) (chunk : List Byte) :
    List Byte × EncState :=
  encDrain c key (s.acc.length + chunk.length) ⟨s.chain, s.acc ++ chunk⟩

/-- Modelled from the spec: the Streaming state of the Stream Encryptor of
package `crypt`, one input chunk after the other. -/
def encFeedAll (c : Cipher) (key : List Byte) : EncState → List (List Byte) → List Byte × EncState
  | s, [] => ([], s)
  | s, chunk :: more =>
    let r := encFeed c key s chunk
    let r2 := encFeedAll c key r.2 more
    (r.1 ++ r2.1, r2.2)

/-- Modelled from the spec: the Finalizing state of the Stream Encryptor of
package `crypt`: the remainder goes through `pad`, the final Blocks through
the Chaining Core. -/
def encFinish (c : Cipher) (key : List Byte) (s : EncState) : List Byte :=
  (encDrain c key (pad s.acc).length ⟨s.chain, pad s.acc⟩).1

/-- Modelled from the spec: `Encrypter` of package `crypt` (section 4.4), read
to its end. `iv` is the IV the caller supplies (`none` for Go's `nil`), `rnd`
the Block the random source yields when an IV has to be generated, `src` the
chunks the plaintext source delivers. -/
def Encrypter (c : Cipher) (key : List Byte) (iv : Option Block) (rnd : Block)
    (src : List (List Byte)) : Stream :=
  if validKey key then
    let iv0 := iv.getD rnd
    let r := encFeedAll c key ⟨iv0, []⟩ src
    ⟨iv0.1 ++ r.1 ++ encFinish c key r.2, none⟩
  else ⟨[], some .badKeySize⟩

/-- Modelled from the spec: the state of the decryption side of the Stream
Buffer of package `crypt`: Chain State, the accumulator of ciphertext bytes
and the held-back decrypted Block. -/
structure DecState where
  /-- the most recent ciphertext Block -/
  chain : Block
  /-- the ciphertext bytes not yet forming a complete Block -/
  acc : List Byte
  /-- the decrypted Block held in reserve -/
  held : Option Block

/-- Modelled from the spec: the bytes of the held-back Block of package
`crypt`, none when no Block is held. -/
def heldBytes : Option Block → List Byte
  | none => []
  | some b => b.1

/-- Modelled from the spec: the loop of the decryption side of the Stream
Buffer of package `crypt`: "While ≥16 bytes are buffered, decrypts one Block
via the Chaining Core ... holds exactly one decrypted Block in reserve and
emits only the previously held Block (if any)". -/
def decDrain (c : Cipher) (key : List Byte) : Nat → DecState → List Byte × DecState
  | 0, s => ([], s)
  | fuel + 1, s =>
    match takeBlock s.acc with
    | none => ([], s)
    | some (cb, rest) =>
      let pb := decryptBlock c key cb s.chain
      let r := decDrain c key fuel ⟨cb, rest, some pb⟩
      (heldBytes s.held ++ r.1, r.2)

/-- Modelled from the spec: the states Init and Streaming of the Stream
Decryptor of package `crypt`: in Init the bytes read so far towards the IV. -/
inductive DecPhase
  | init (buf : List Byte)
  | streaming (s : DecState)

/-- Modelled from the spec: the Stream Decryptor of package `crypt` accepting
one input chunk: the first 16 bytes are the IV and seed the Chain State, what
follows goes to the decryption side of the Stream Buffer. -/
def decFeed (c : Cipher) (key : List Byte) (ph : DecPhase) (chunk : List Byte) :
    List Byte × DecPhase :=
  match ph with
  | .init buf =>
    match takeBlock (buf ++ chunk) with
    | none => ([], .init (buf ++ chunk))
    | some (iv, rest) =>
      let r := decDrain c key rest.length ⟨iv, rest, none⟩
      (r.1, .streaming r.2)
  | .streaming s =>
    let r := decDrain c key (s.acc.length + chunk.length) ⟨s.chain, s.acc ++ chunk, s.held⟩
    (r.1, .streaming r.2)

/-- Modelled from the spec: the Stream Decryptor of package `crypt` over all
chunks of its source. -/
def decFeedAll (c : Cipher) (key : List Byte) : DecPhase → List (List Byte) → List Byte × DecPhase
  | ph, [] => ([], ph)
  | ph, chunk :: more =>
    let r := decFeed c key ph chunk
    let r2 := decFeedAll c key r.2 more
    (r.1 ++ r2.1, r2.2)

/-- Modelled from the spec: the Stream Decryptor of package `crypt` on source
exhaustion: `CorruptStream` when fewer than 16 bytes were there for the IV,
when ciphertext bytes remain that do not fill a Block, or when no Block
followed the IV; else `unpad` of the held-back Block. -/
def decFinish : DecPhase → Except CryptError (List Byte)
  | .init _ => .error .corruptStream
  | .streaming s =>
    if s.acc ≠ [] then .error .corruptStream
    else
      match s.held with
      | none => .error .corruptStream
      | some b => unpad b

/-- Modelled from the spec: `Decrypter` of package `crypt` (section 4.5), read
to its end; `src` are the chunks the ciphertext source delivers. -/
def Decrypter (c : Cipher) (key : List Byte) (src : List (List Byte)) : Stream :=
  if validKey key then
    let r := decFeedAll c key (.init []) src
    match decFinish r.2 with
    | .ok tail => ⟨r.1 ++ tail, none⟩
    | .error e => ⟨r.1, some e⟩
  else ⟨[], some .badKeySize⟩

/-! ## Command `cryptstream` (`cryptstream.go`) -/

/-- What `os.Stat` reports for a path, as far as `os.IsNotExist` tells the
results apart: no error, a not-exist error, any other error. -/
inductive StatResult
  | found
  | notExist
  | otherError
  deriving DecidableEq, Repr

/-- Go `os.IsNotExist` on the error of `os.Stat`. -/
def isNotExist : StatResult → Bool
  | .notExist => true
  | _ => false

/-- The environment of one run of the command. -/
structure World where
  /-- `os.Args` -/
  args : List String
  /-- the result of `os.Getwd()`: the directory, or the text of the error -/
  getwd : Except String String
  /-- the result of `os.Stat` on a path -/
  stat : String → StatResult
  /-- the result of `tokenize.File` on a path: the lines as token lists, or
  the text of the error -/
  tokenizeFile : String → Except String (List (List String))
  /-- the chunks that reads of `os.Stdin` deliver -/
  stdin : List (List Byte)
  /-- the bytes that `crypto/rand` yields, by position -/
  random : Nat → Byte
  /-- the AES block cipher -/
  cipher : Cipher
  /-- the Unicode tables of `strconv.IsPrint` -/
  printTable : Char → Bool

/-- The calls into the operating system that a run makes, in order. -/
inductive Event
  | getwd
  | stat (path : String)
  | tokenizeFile (path : String)
  | readStdin
  | randRead (n : Nat)
  deriving DecidableEq, Repr

/-- How a function of the command stops early: `fail` (a message on stderr and
`os.Exit(1)`), or a run-time panic of Go. -/
inductive Abort
  | fail (s : String)
  | panic (s : String)
  deriving DecidableEq, Repr

/-- `func fail(s string)`: `fmt.Fprintln(os.Stderr, s)` and `os.Exit(1)`; the
caller does not continue. -/
def fail {α : Type} (s : String) : Except Abort α := .error (.fail s)

/-- `func usage()`. -/
def usage {α : Type} : Except Abort α :=
  fail "usage: cryptstream [encrypt | decrypt | key [128 | 192 | 256]]"

/-- The loop of `findconfig`. `none`: the fuel ran out before the loop ended. -/
def findconfigLoop (w : World) (name : String) :
    Nat → String → Option (List Event × Except Abort String)
  | 0, _ => none
  | fuel + 1, p =>
    let pp := p ++ "/" ++ name
    if !isNotExist (w.stat pp) then some ([.stat pp], .ok pp)
    else
      let np := pathDir p
      if np = p then some ([.stat pp], fail ("could not find " ++ name))
      else
        match findconfigLoop w name fuel np with
        | none => none
        | some (tr, r) => some (.stat pp :: tr, r)

/-- `func findconfig(p, name string) string`, with the calls it makes. -/
def findconfig (w : World) (fuel : Nat) (p name : String) :
    Option (List Event × Except Abort String) :=
  if p ≠ "" then
    match w.getwd with
    | .error err => some ([.getwd], fail ("finding " ++ name ++ ": " ++ err))
    | .ok wd =>
      match findconfigLoop w name fuel wd with
      | none => none
      | some (tr, r) => some (.getwd :: tr, r)
  else findconfigLoop w name fuel p

/-- The closure `need` of `main` and of `parseconfig`:
`fail` unless `len(t) == n`. -/
def need (w : World) (cmd : String) (t : List String) (n : Nat) : Except Abort Unit :=
  if t.length ≠ n then
    fail ("bad parameters for " ++ quote w.printTable cmd ++ ", expected " ++ itoa n ++
      ", saw " ++ itoa t.length)
  else .ok ()

/-- The body of the loop `for _, t := range lines` of `parseconfig` on one
tokenized line: the value it assigns to the variable `key`. -/
def parseLine (w : World) (line : List String) : Except Abort (List Byte) :=
  match line with
  | [] => .error (.panic "runtime error: index out of range [0] with length 0")
  | cmd :: t =>
    if cmd = "key" then
      match need w cmd t 1 with
      | .error a => .error a
      | .ok _ =>
        match hexDecodeString (t.headD "") with
        | none => fail "bad key, invalid hex"
        | some k => .ok k
    else fail ("bad config line " ++ quote w.printTable cmd)

/-- The loop `for _, t := range lines` of `parseconfig`, from the value `key`
of the variable `key`. -/
def parseLines (w : World) : List Byte → List (List String) → Except Abort (List Byte)
  | key, [] => .ok key
  | _, line :: more =>
    match parseLine w line with
    | .error a => .error a
    | .ok key1 => parseLines w key1 more

/-- The closure `parseconfig` of `main`; it returns the value it leaves in the
variable `key`, which is `nil` before. -/
def parseconfig (w : World) (fuel : Nat) : Option (List Event × Except Abort (List Byte)) :=
  match findconfig w fuel "" "cryptstream.conf" with
  | none => none
  | some (tr, .error a) => some (tr, .error a)
  | some (tr, .ok pp) =>
    match w.tokenizeFile pp with
    | .error err => some (tr ++ [.tokenizeFile pp], fail err)
    | .ok lines => some (tr ++ [.tokenizeFile pp], parseLines w [] lines)

/-- A finished run of the command: the calls it made, what it wrote and its
exit status. -/
structure Run where
  /-- the calls into the operating system, in order -/
  trace : List Event
  /-- the bytes written to stdout -/
  stdout : List Byte
  /-- the text written to stderr -/
  stderr : String
  /-- the exit status of the process -/
  status : Nat
  deriving DecidableEq, Repr

/-- The end of a run: status 0 when `main` returns, the effect of `fail`
(`fmt.Fprintln(os.Stderr, s)`, `os.Exit(1)`), or the Go run time ending the
process on a panic with status 2; of what the run time prints on a panic the
first line is kept. -/
def finish (trace : List Event) (stdout : List Byte) (r : Except Abort Unit) : Run :=
  match r with
  | .ok _ => ⟨trace, stdout, "", 0⟩
  | .error (.fail s) => ⟨trace, stdout, s ++ "\n", 1⟩
  | .error (.panic s) => ⟨trace, stdout, "panic: " ++ s ++ "\n", 2⟩

/-- The Block that the IV generation of `Encrypter` gets from `crypto/rand`. -/
def randomBlock (w : World) : Block :=
  ⟨(List.range 16).map w.random, by simp⟩

/-- `rand.Read(buf)` on `buf := make([]byte, n)`: the filled buffer and the
error. `crypto/rand` fills the buffer entirely and its error is always nil: a
random source that cannot be read ends the process inside `rand.Read`. -/
def randRead (w : World) (n : Nat) : List Byte × Option String :=
  ((List.range n).map w.random, none)

/-- The bytes of a text written to stdout. -/
def textBytes (s : List Char) : List Byte := s.map (fun ch => Fin.ofNat ch.toNat)

/-- `_, err := io.Copy(os.Stdout, r); if err != nil { fail(err.Error()) }`
for a stream `r` of package `crypt` over `os.Stdin` made with `key`; a key of
a bad size is refused before the stream reads its source. -/
def copyToStdout (trace : List Event) (key : List Byte) (r : Stream) : Run :=
  finish (if validKey key then trace ++ [.readStdin] else trace) r.bytes
    (match r.err with
     | none => .ok ()
     | some e => fail e.text)

/-- The switches of `case "key":` of `main` that set the size `n` of the key
in bytes. -/
def keySize (w : World) (args : List String) : Except Abort Nat :=
  match args with
  | [] => .ok 32
  | [a] =>
    if a = "128" then .ok 16
    else if a = "192" then .ok 24
    else if a = "256" then .ok 32
    else fail ("bad size " ++ quote w.printTable a)
  | _ => usage

/-- `case "encrypt":` of `main`. -/
def caseEncrypt (w : World) (fuel : Nat) (cmd : String) (args : List String) : Option Run :=
  match need w cmd args 0 with
  | .error a => some (finish [] [] (.error a))
  | .ok _ =>
    match parseconfig w fuel with
    | none => none
    | some (tr, .error a) => some (finish tr [] (.error a))
    | some (tr, .ok key) =>
      some (copyToStdout tr key (Encrypter w.cipher key none (randomBlock w) w.stdin))

/-- `case "decrypt":` of `main`. -/
def caseDecrypt (w : World) (fuel : Nat) (cmd : String) (args : List String) : Option Run :=
  match need w cmd args 0 with
  | .error a => some (finish [] [] (.error a))
  | .ok _ =>
    match parseconfig w fuel with
    | none => none
    | some (tr, .error a) => some (finish tr [] (.error a))
    | some (tr, .ok key) => some (copyToStdout tr key (Decrypter w.cipher key w.stdin))

/-- `case "key":` of `main`. -/
def caseKey (w : World) (args : List String) : Run :=
  match keySize w args with
  | .error a => finish [] [] (.error a)
  | .ok n =>
    match (randRead w n).2 with
    | some err => finish [.randRead n] [] (fail err)
    | none => finish [.randRead n] (textBytes (fmtHex (randRead w n).1 ++ ['\n'])) (.ok ())

/-- `func main()`. `fuel` bounds the turns of the loop of `findconfig`;
`none`: it ran out. -/
def main (w : World) (fuel : Nat) : Option Run :=
  if w.args.length < 2 then some (finish [] [] usage)
  else
    let cmd := w.args.getD 1 ""
    let args := w.args.drop 2
    if cmd = "encrypt" then caseEncrypt w fuel cmd args
    else if cmd = "decrypt" then caseDecrypt w fuel cmd args
    else if cmd = "key" then some (caseKey w args)
    else some (finish [] [] usage)

/-! ## The test `TestBoth` (`cryptstream_test.go`) -/

/-- `const blocksize = 16` of `TestBoth`. -/
def blocksize : Int := 16

/-- The slice `lengths` of `TestBoth`. -/
def lengths : List Int :=
  [0, 1, 15, 16, 17, 64*1024-blocksize-1, 64*1024-blocksize, 64*1024-blocksize+1,
    64*2014-blocksize+7]

/-- `key128` as `init` sets it, the error of `hex.DecodeString` dropped. -/
def key128 : List Byte := (hexDecodeString "e835dc07aeb177466ad54d1e91f4a648").getD []

/-- `key192` as `init` sets it. -/
def key192 : List Byte :=
  (hexDecodeString "71c7fc037ad1e746131f0aeeff69a4bcd04369c688d11a25").getD []

/-- `key256` as `init` sets it. -/
def key256 : List Byte :=
  (hexDecodeString "6d992c54605715b77207a2e650b17e32b4b153705b969ecaef7bd8bb6d1709f0").getD []

/-! ## Worlds for concrete runs -/

/-- A block cipher that leaves every block as it is; its decrypt inverts its
encrypt. -/
def idCipher : Cipher := ⟨fun _ b => b, fun _ b => b⟩

/-- `os.Stat` over a file system that holds exactly the files `files` (clean
absolute paths), for a process with working directory `cwd`: a relative path
is resolved against `cwd`. -/
def statIn (cwd : String) (files : List String) (p : String) : StatResult :=
  let q : String :=
    if p.data.head? = some '/' then ⟨pathClean p.data⟩
    else ⟨pathClean (cwd.data ++ '/' :: p.data)⟩
  if q ∈ files then .found else .notExist

/-- A world: the arguments `args`, working directory `cwd`, a file system that
holds the one config file `conf` with the tokenized lines `lines`, an empty
stdin, a random source of zero bytes. -/
def demoWorld (args : List String) (cwd : String) (conf : List String)
    (lines : List (List String)) : World where
  args := args
  getwd := .ok cwd
  stat := statIn cwd conf
  tokenizeFile := fun _ => .ok lines
  stdin := []
  random := fun _ => 0
  cipher := idCipher
  printTable := fun _ => false

/-! ## Predicates of the statements -/

/-- A hexadecimal digit, in either case. -/
def isHexDigit (ch : Char) : Prop :=
  ch ∈ ['0', '1', '2', '3', '4', '5', '6', '7', '8', '9',
    'a', 'b', 'c', 'd', 'e', 'f', 'A', 'B', 'C', 'D', 'E', 'F']

/-- A valid hexadecimal string of even length. -/
def validHex (s : String) : Prop :=
  s.length % 2 = 0 ∧ ∀ ch ∈ s.data, isHexDigit ch

/-- A config line that the parser takes: the token `key` followed by exactly
one argument, a valid hexadecimal string of even length. -/
def validLine (line : List String) : Prop :=
  ∃ h, line = ["key", h] ∧ validHex h

/-- A run that fails at once: nothing looked up, nothing read, nothing written
to stdout, one line on stderr and exit status 1. -/
def failsAtOnce (r : Option Run) : Prop :=
  ∃ msg : String, '\n' ∉ msg.data ∧ r = some ⟨[], [], msg ++ "\n", 1⟩

/-- The contract of `tokenize.File` that `parseconfig` relies on when it reads
`t[0]`: no line without a token. -/
def tokenizerGivesTokens (w : World) : Prop :=
  ∀ p lines, w.tokenizeFile p = .ok lines → ∀ l ∈ lines, l ≠ []

/-- The encryption side of the Stream Buffer run over `data` from the Chain
State `chain` with an empty accumulator, the fuel being the length of the
data. -/
def encRun (c : Cipher) (key : List Byte) (chain : Block) (data : List Byte) :
    List Byte × EncState :=
  encDrain c key data.length ⟨chain, data⟩

/-- The decryption side of the Stream Buffer run over `data` from the Chain
State `chain` and the held-back Block `held`, the fuel being the length of the
data. -/
def decRun (c : Cipher) (key : List Byte) (chain : Block) (data : List Byte)
    (held : Option Block) : List Byte × DecState :=
  decDrain c key data.length ⟨chain, data, held⟩

/-! ## Theorems -/

/-- C8: the lengths that `TestBoth` exercises, computed from its expressions
with `blocksize = 16`, are 0, 1, 15, 16, 17, 65519, 65520, 65521 and 128887:
the last expression `64*2014-blocksize+7` is 128887, not 65527, so the list is
not the list 0, 1, 15, 16, 17, 65519, 65520, 65521, 65527; the three test keys
have 16, 24 and 32 bytes. -/
theorem testBoth_lengths_eval :
    lengths = [0, 1, 15, 16, 17, 65519, 65520, 65521, 128887] ∧
    lengths ≠ [0, 1, 15, 16, 17, 65519, 65520, 65521, 65527] ∧
    (64 * 1024 - blocksize + 7 = 65527) ∧
    key128.length = 16 ∧ key192.length = 24 ∧ key256.length = 32 := by
  refine ⟨by decide, by decide, by decide, by decide, by decide, by decide⟩

/-- C2: a config file with the single line `hex h`, the format of the package
documentation, is refused by the loop of `parseconfig` with
`bad config line "hex"` for every `h`; so is the documented example in a run
of `encrypt`, where the same file with the directive `key` is read and
yields the 32 bytes decoded from the hexadecimal text. -/
theorem parseconfig_rejects_hex_directive :
    (∀ (w : World) (h : String),
      parseLines w [] [["hex", h]] = fail "bad config line \"hex\"") ∧
    main (demoWorld ["cryptstream", "encrypt"] "/" ["/cryptstream.conf"]
        [["hex", "cb6516454a01e28a381d5059ff7cf8774134708516342e839535be6ef2a9fd54"]]) 2 =
      some ⟨[.stat "/cryptstream.conf", .tokenizeFile "/cryptstream.conf"], [],
        "bad config line \"hex\"\n", 1⟩ ∧
    (parseLines (demoWorld [] "/" [] []) []
        [["key", "cb6516454a01e28a381d5059ff7cf8774134708516342e839535be6ef2a9fd54"]]).toOption =
      hexDecodeString "cb6516454a01e28a381d5059ff7cf8774134708516342e839535be6ef2a9fd54" ∧
    ((hexDecodeString
        "cb6516454a01e28a381d5059ff7cf8774134708516342e839535be6ef2a9fd54").map List.length) =
      some 32 := by
  refine ⟨fun _ _ => rfl, rfl, rfl, by decide⟩

/-- C3: with working directory `/a/b` and the config file in the parent
directory `/a` only, `findconfig("", name)` probes `/name` and `./name` and
fails with "could not find"; with the file both in `/` and in the working
directory it returns the one in `/`, not the nearest; with a non-empty first
argument the same function finds the file in `/a`. -/
theorem findconfig_misses_ancestors :
    findconfig (demoWorld [] "/a/b" ["/a/cryptstream.conf"] []) 8 "" "cryptstream.conf" =
      some ([.stat "/cryptstream.conf", .stat "./cryptstream.conf"],
        fail "could not find cryptstream.conf") ∧
    findconfig (demoWorld [] "/a/b" ["/cryptstream.conf", "/a/b/cryptstream.conf"] []) 8 ""
        "cryptstream.conf" =
      some ([.stat "/cryptstream.conf"], .ok "/cryptstream.conf") ∧
    findconfig (demoWorld [] "/a/b" ["/a/cryptstream.conf"] []) 8 "x" "cryptstream.conf" =
      some ([.getwd, .stat "/a/b/cryptstream.conf", .stat "/a/cryptstream.conf"],
        .ok "/a/cryptstream.conf") := by
  refine ⟨rfl, rfl, rfl⟩

theorem findconfig_empty (w : World) (name : String) (fuel : Nat) :
    findconfig w (fuel + 2) "" name =
      some (if w.stat ("/" ++ name) ≠ .notExist then
          ([.stat ("/" ++ name)], .ok ("/" ++ name))
        else if w.stat ("./" ++ name) ≠ .notExist then
          ([.stat ("/" ++ name), .stat ("./" ++ name)], .ok ("./" ++ name))
        else ([.stat ("/" ++ name), .stat ("./" ++ name)], fail ("could not find " ++ name))) := by
  have h1 : ("" : String) ++ "/" = "/" := by decide
  have h2 : ("." : String) ++ "/" = "./" := by decide
  have h3 : pathDir "" = "." := by decide
  have h4 : pathDir "." = "." := by decide
  have h5 : ("." : String) ≠ "" := by decide
  simp only [findconfig, findconfigLoop, h1, h2, h3, h4]
  cases hs : w.stat ("/" ++ name) <;> cases hs2 : w.stat ("./" ++ name) <;>
    simp [isNotExist, h5]

/-- C10: for every file name and every world `findconfig("", name)` ends
within two turns of its loop, as `path.Dir("") = "."` and
`path.Dir(".") = "."`: it does not call `Getwd`, it probes `"/"+name` and then
`"./"+name` with `Stat`, returns the first of the two whose `Stat` result is
not a not-exist error (no error or another error alike), and fails with
"could not find <name>" when both report not-exist. -/
theorem findconfig_probes_root_then_dot (w : World) (name : String) (fuel : Nat) :
    pathDir "" = "." ∧ pathDir "." = "." ∧
    findconfig w (fuel + 2) "" name =
      some (if w.stat ("/" ++ name) ≠ .notExist then
          ([.stat ("/" ++ name)], .ok ("/" ++ name))
        else if w.stat ("./" ++ name) ≠ .notExist then
          ([.stat ("/" ++ name), .stat ("./" ++ name)], .ok ("./" ++ name))
        else ([.stat ("/" ++ name), .stat ("./" ++ name)], fail ("could not find " ++ name))) :=
  ⟨by decide, by decide, findconfig_empty w name fuel⟩

/-! ### Hexadecimal decoding -/

theorem fromHexChar_isSome_iff (ch : Char) : (fromHexChar ch).isSome ↔ isHexDigit ch := by
  constructor
  · intro h
    have hc : Char.ofNat ch.toNat = ch := Char.ofNat_toNat ch
    unfold fromHexChar at h
    have hr : (48 ≤ ch.toNat ∧ ch.toNat ≤ 57) ∨ (97 ≤ ch.toNat ∧ ch.toNat ≤ 102) ∨
        (65 ≤ ch.toNat ∧ ch.toNat ≤ 70) := by
      by_contra hcon
      simp only [not_or] at hcon
      obtain ⟨h1, h2, h3⟩ := hcon
      have e0 : '0'.toNat = 48 := by decide
      have e9 : '9'.toNat = 57 := by decide
      have ea : 'a'.toNat = 97 := by decide
      have ef : 'f'.toNat = 102 := by decide
      have eA : 'A'.toNat = 65 := by decide
      have eF : 'F'.toNat = 70 := by decide
      rw [e0, e9, ea, ef, eA, eF] at h
      simp [h1, h2, h3] at h
    rw [← hc]
    unfold isHexDigit
    rcases hr with ⟨h1, h2⟩ | ⟨h1, h2⟩ | ⟨h1, h2⟩ <;>
      interval_cases ch.toNat <;> decide
  · intro h
    unfold isHexDigit at h
    simp only [List.mem_cons, List.mem_singleton, List.not_mem_nil, or_false] at h
    rcases h with h | h | h | h | h | h | h | h | h | h | h | h | h | h | h | h | h | h | h |
      h | h | h <;> subst h <;> decide

theorem hexDecode_isSome_iff (l : List Char) :
    (hexDecode l).isSome ↔ l.length % 2 = 0 ∧ ∀ ch ∈ l, isHexDigit ch := by
  induction l using hexDecode.induct with
  | case1 => simp [hexDecode]
  | case2 x => simp [hexDecode]
  | case3 p q rest a b hb ha bs hbs ih =>
    have hp : (fromHexChar p).isSome := by simp [ha]
    have hq : (fromHexChar q).isSome := by simp [hb]
    rw [fromHexChar_isSome_iff] at hp hq
    simp only [hbs, Option.isSome_some, true_iff] at ih
    simp only [hexDecode, ha, hb, hbs, Option.isSome_some, true_iff, List.length_cons,
      List.mem_cons]
    refine ⟨by omega, ?_⟩
    intro ch hch
    rcases hch with h | h | h
    · exact h ▸ hp
    · exact h ▸ hq
    · exact ih.2 ch h
  | case4 p q rest a b hb ha hbs ih =>
    simp only [hbs, Option.isSome_none, Bool.false_eq_true, false_iff] at ih
    simp only [hexDecode, ha, hb, hbs, Option.isSome_none, Bool.false_eq_true, false_iff,
      List.length_cons, List.mem_cons]
    intro hcon
    apply ih
    refine ⟨by omega, fun ch hch => hcon.2 ch (Or.inr (Or.inr hch))⟩
  | case5 p q rest hno =>
    have hpq : ¬ ((fromHexChar p).isSome ∧ (fromHexChar q).isSome) := by
      intro ⟨h1, h2⟩
      obtain ⟨a, ha⟩ := Option.isSome_iff_exists.mp h1
      obtain ⟨b, hb⟩ := Option.isSome_iff_exists.mp h2
      exact hno a b ha hb
    have hd : hexDecode (p :: q :: rest) = none := by
      unfold hexDecode
      split
      · rename_i a b ha hb
        exact absurd ⟨by simp [ha], by simp [hb]⟩ hpq
      · rfl
    rw [hd]
    simp only [Option.isSome_none, Bool.false_eq_true, false_iff, List.length_cons,
      List.mem_cons]
    intro hcon
    apply hpq
    rw [fromHexChar_isSome_iff, fromHexChar_isSome_iff]
    exact ⟨hcon.2 p (Or.inl rfl), hcon.2 q (Or.inr (Or.inl rfl))⟩

theorem hexDecode_length (l : List Char) (bs : List Byte) (h : hexDecode l = some bs) :
    2 * bs.length = l.length := by
  induction l using hexDecode.induct generalizing bs with
  | case1 => simp [hexDecode] at h; simp [← h]
  | case2 x => simp [hexDecode] at h
  | case3 p q rest a b hb ha bs1 hbs ih =>
    simp only [hexDecode, ha, hb, hbs, Option.some.injEq] at h
    have := ih bs1 hbs
    rw [← h]
    simp only [List.length_cons]
    omega
  | case4 p q rest a b hb ha hbs ih =>
    simp [hexDecode, ha, hb, hbs] at h
  | case5 p q rest hno =>
    unfold hexDecode at h
    split at h
    · rename_i a b ha hb
      exact absurd hb (hno a b ha)
    · simp at h

theorem hexDecodeString_isSome_iff (s : String) :
    (hexDecodeString s).isSome ↔ validHex s := by
  unfold hexDecodeString validHex
  rw [hexDecode_isSome_iff]
  rfl

/-! ### The config parser -/

theorem parseLine_key_one (w : World) (h : String) :
    parseLine w ["key", h] =
      match hexDecodeString h with
      | none => fail "bad key, invalid hex"
      | some k => .ok k := by
  simp [parseLine, need]

theorem parseLine_key_count (w : World) (t : List String) (ht : t.length ≠ 1) :
    parseLine w ("key" :: t) =
      fail ("bad parameters for \"key\", expected 1, saw " ++ itoa t.length) := by
  have hq : quote w.printTable "key" = "\"key\"" := rfl
  have h1 : itoa 1 = "1" := rfl
  simp only [parseLine, need, ht, hq, h1, if_true, ne_eq, not_false_eq_true]
  rfl

theorem parseLine_other (w : World) (cmd : String) (t : List String) (hc : cmd ≠ "key") :
    parseLine w (cmd :: t) = fail ("bad config line " ++ quote w.printTable cmd) := by
  simp [parseLine, hc]

theorem parseLine_ok_iff (w : World) (line : List String) :
    (∃ key, parseLine w line = .ok key) ↔ validLine line := by
  constructor
  · rintro ⟨key, hk⟩
    match line, hk with
    | [], hk => simp [parseLine] at hk
    | cmd :: t, hk =>
      by_cases hc : cmd = "key"
      · subst hc
        by_cases ht : t.length = 1
        · match t, ht with
          | [h], _ =>
            refine ⟨h, rfl, ?_⟩
            rw [parseLine_key_one] at hk
            rw [← hexDecodeString_isSome_iff]
            cases hd : hexDecodeString h with
            | none => rw [hd] at hk; simp [fail] at hk
            | some k => rfl
        · rw [parseLine_key_count w t ht] at hk
          simp [fail] at hk
      · rw [parseLine_other w cmd t hc] at hk
        simp [fail] at hk
  · rintro ⟨h, rfl, hv⟩
    rw [← hexDecodeString_isSome_iff] at hv
    obtain ⟨k, hk⟩ := Option.isSome_iff_exists.mp hv
    exact ⟨k, by rw [parseLine_key_one, hk]⟩

theorem parseLine_not_panic (w : World) (line : List String) (hne : line ≠ []) (s : String) :
    parseLine w line ≠ .error (.panic s) := by
  match line, hne with
  | cmd :: t, _ =>
    by_cases hc : cmd = "key"
    · subst hc
      by_cases ht : t.length = 1
      · match t, ht with
        | [h], _ =>
          rw [parseLine_key_one]
          cases hexDecodeString h <;> simp [fail]
      · rw [parseLine_key_count w t ht]; simp [fail]
    · rw [parseLine_other w cmd t hc]; simp [fail]

theorem parseLines_append (w : World) (key : List Byte) (pre post : List (List String)) :
    parseLines w key (pre ++ post) =
      match parseLines w key pre with
      | .error a => .error a
      | .ok key1 => parseLines w key1 post := by
  induction pre generalizing key with
  | nil => simp [parseLines]
  | cons l pre ih =>
    simp only [List.cons_append, parseLines]
    cases parseLine w l with
    | error a => rfl
    | ok k => exact ih k

theorem parseLines_ok_iff (w : World) (key : List Byte) (lines : List (List String)) :
    (∃ k, parseLines w key lines = .ok k) ↔ ∀ l ∈ lines, validLine l := by
  induction lines generalizing key with
  | nil => simp [parseLines]
  | cons l more ih =>
    simp only [parseLines, List.mem_cons, forall_eq_or_imp]
    rw [← parseLine_ok_iff w l, ← ih []]
    constructor
    · rintro ⟨k, hk⟩
      cases hl : parseLine w l with
      | error a => rw [hl] at hk; simp at hk
      | ok k1 =>
        rw [hl] at hk
        exact ⟨⟨k1, rfl⟩, (ih []).mpr ((ih k1).mp ⟨k, hk⟩)⟩
    · rintro ⟨⟨k1, hk1⟩, h2⟩
      rw [hk1]
      exact (ih k1).mpr ((ih []).mp h2)

theorem parseLines_first_bad (w : World) (key : List Byte) (pre post : List (List String))
    (l : List String) (hpre : ∀ x ∈ pre, validLine x) (a : Abort)
    (hl : parseLine w l = .error a) :
    parseLines w key (pre ++ l :: post) = .error a := by
  rw [parseLines_append]
  obtain ⟨k, hk⟩ := (parseLines_ok_iff w key pre).mpr hpre
  rw [hk]
  simp [parseLines, hl]

theorem parseLines_not_panic (w : World) (key : List Byte) (lines : List (List String))
    (hne : ∀ l ∈ lines, l ≠ []) (s : String) :
    parseLines w key lines ≠ .error (.panic s) := by
  induction lines generalizing key with
  | nil => simp [parseLines]
  | cons l more ih =>
    simp only [parseLines]
    cases hl : parseLine w l with
    | error a =>
      intro hcon
      simp at hcon
      exact parseLine_not_panic w l (hne l (List.mem_cons_self _ _)) s (by rw [hl, hcon])
    | ok k => exact ih k (fun x hx => hne x (List.mem_cons_of_mem _ hx))

theorem parseLines_last (w : World) (key k : List Byte) (pre : List (List String)) (h : String)
    (hk : parseLines w key (pre ++ [["key", h]]) = .ok k) :
    hexDecodeString h = some k ∧ 2 * k.length = h.length := by
  rw [parseLines_append] at hk
  cases hp : parseLines w key pre with
  | error a => rw [hp] at hk; simp at hk
  | ok k1 =>
    rw [hp] at hk
    simp only [parseLines, parseLine_key_one] at hk
    cases hd : hexDecodeString h with
    | none => rw [hd] at hk; simp [fail] at hk
    | some k2 =>
      rw [hd] at hk
      simp only [Except.ok.injEq] at hk
      subst hk
      exact ⟨rfl, hexDecode_length h.data k2 hd⟩

theorem parseLines_ok_shape (w : World) (k : List Byte) (lines : List (List String))
    (hk : parseLines w [] lines = .ok k) :
    (lines = [] ∧ k = []) ∨
      ∃ pre h, lines = pre ++ [["key", h]] ∧ hexDecodeString h = some k ∧
        2 * k.length = h.length := by
  rcases List.eq_nil_or_concat lines with rfl | ⟨pre, l, hl⟩
  · left
    simp [parseLines] at hk
    exact ⟨rfl, hk⟩
  · right
    rw [List.concat_eq_append] at hl
    subst hl
    have hv := (parseLines_ok_iff w [] (pre ++ [l])).mp ⟨k, hk⟩ l (by simp)
    obtain ⟨h, rfl, _⟩ := hv
    exact ⟨pre, h, rfl, parseLines_last w [] k pre h hk⟩

/-- C9: for every list of tokenized config lines, each with at least one
token, the loop of `parseconfig` ends without `fail` exactly when every line
is the token `key` followed by one argument that is a valid hexadecimal string
of even length, and it never panics; on success the key is the decoding of the
argument of the last line (half as many bytes as it has digits), and the empty
key for no line at all; the first line that is not valid fails with
`bad config line` for another first token, `bad parameters` for a wrong number
of arguments, `bad key, invalid hex` for an argument that does not decode. -/
theorem parseconfig_accepts_iff (w : World) (lines : List (List String))
    (hne : ∀ l ∈ lines, l ≠ []) :
    ((∃ key, parseLines w [] lines = .ok key) ↔ ∀ l ∈ lines, validLine l) ∧
    (∀ s, parseLines w [] lines ≠ .error (.panic s)) ∧
    (∀ key, parseLines w [] lines = .ok key →
      (lines = [] ∧ key = []) ∨
        ∃ pre h, lines = pre ++ [["key", h]] ∧ hexDecodeString h = some key ∧
          2 * key.length = h.length) ∧
    parseLines w [] [] = .ok [] ∧
    (∀ pre cmd t post, lines = pre ++ (cmd :: t) :: post → (∀ l ∈ pre, validLine l) →
      (cmd ≠ "key" →
        parseLines w [] lines = fail ("bad config line " ++ quote w.printTable cmd)) ∧
      (cmd = "key" → t.length ≠ 1 →
        parseLines w [] lines =
          fail ("bad parameters for \"key\", expected 1, saw " ++ itoa t.length)) ∧
      (cmd = "key" → ∀ h, t = [h] → ¬ validHex h →
        parseLines w [] lines = fail "bad key, invalid hex")) := by
  refine ⟨parseLines_ok_iff w [] lines, parseLines_not_panic w [] lines hne,
    fun key hk => parseLines_ok_shape w key lines hk, rfl, ?_⟩
  intro pre cmd t post hl hpre
  subst hl
  refine ⟨fun hc => ?_, fun hc ht => ?_, fun hc h ht hv => ?_⟩
  · exact parseLines_first_bad w [] pre post _ hpre _ (parseLine_other w cmd t hc)
  · subst hc
    exact parseLines_first_bad w [] pre post _ hpre _ (parseLine_key_count w t ht)
  · subst hc ht
    refine parseLines_first_bad w [] pre post _ hpre _ ?_
    rw [parseLine_key_one]
    rw [← hexDecodeString_isSome_iff] at hv
    cases hd : hexDecodeString h with
    | none => rfl
    | some k => simp [hd] at hv

/-- Witness of C9: the one-line config `key 00ff` has no empty line and is
accepted. -/
theorem parseconfig_accepts_iff_witness :
    (∀ l ∈ [["key", "00ff"]], l ≠ []) ∧
    ((∃ key, parseLines (demoWorld [] "/" [] []) [] [["key", "00ff"]] = .ok key) ↔
      ∀ l ∈ [["key", "00ff"]], validLine l) :=
  ⟨by simp, (parseconfig_accepts_iff (demoWorld [] "/" [] []) [["key", "00ff"]] (by simp)).1⟩

theorem hexDecode_zeros (n : Nat) :
    hexDecode (List.replicate (2 * n) '0') = some (List.replicate n 0) := by
  induction n with
  | zero => rfl
  | succ n ih =>
    have h2 : 2 * (n + 1) = (2 * n + 1) + 1 := by ring
    have h0 : fromHexChar '0' = some 0 := by decide
    rw [h2, List.replicate_succ, List.replicate_succ]
    simp only [hexDecode, h0, ih, List.replicate_succ]
    rfl

theorem parseconfig_ok_inv (w : World) (fuel : Nat) (tr : List Event) (key : List Byte)
    (h : parseconfig w fuel = some (tr, .ok key)) :
    ∃ pp lines, w.tokenizeFile pp = .ok lines ∧ parseLines w [] lines = .ok key := by
  unfold parseconfig at h
  split at h
  · simp at h
  · simp at h
  · rename_i tr1 pp hf
    split at h
    · simp [fail] at h
    · rename_i lines hl
      simp only [Option.some.injEq, Prod.mk.injEq] at h
      exact ⟨pp, lines, hl, h.2⟩

/-- C6 fails as stated: the config `key 00` is accepted and supplies the key of
the single byte 0, whose length is not 16, 24 or 32; so does a config without
lines, with the empty key. -/
theorem parseconfig_key_size_counterexample :
    parseconfig (demoWorld ["cryptstream", "encrypt"] "/" ["/cryptstream.conf"]
        [["key", "00"]]) 2 =
      some ([.stat "/cryptstream.conf", .tokenizeFile "/cryptstream.conf"], .ok [0]) ∧
    ¬ validKey [0] ∧
    parseconfig (demoWorld ["cryptstream", "encrypt"] "/" ["/cryptstream.conf"] []) 2 =
      some ([.stat "/cryptstream.conf", .tokenizeFile "/cryptstream.conf"], .ok []) ∧
    ¬ validKey [] := by
  refine ⟨rfl, by decide, rfl, by decide⟩

/-- C6 as amended: when `parseconfig` ends without failing, the tokenized file
has no line and the key is empty, or its last line is `key h` with `h` a valid
hexadecimal string and the key is the decoding of `h`, of half the length of
`h`; every length occurs among the keys of accepted configs; a key whose
length is not 16, 24 or 32 is refused by `Encrypter` and `Decrypter` with
`BadKeySize` before anything is emitted. -/
theorem parseconfig_key_is_last_decoded (w : World) (fuel : Nat) (tr : List Event)
    (key : List Byte) (h : parseconfig w fuel = some (tr, .ok key)) :
    (∃ pp lines, w.tokenizeFile pp = .ok lines ∧
      ((lines = [] ∧ key = []) ∨
        ∃ pre h, lines = pre ++ [["key", h]] ∧ validHex h ∧ hexDecodeString h = some key ∧
          2 * key.length = h.length)) ∧
    (∀ n : Nat, ∃ lines k, parseLines w [] lines = .ok k ∧ k.length = n) ∧
    (¬ validKey key → ∀ (c : Cipher) (iv : Option Block) (rnd : Block) (src : List (List Byte)),
      Encrypter c key iv rnd src = ⟨[], some .badKeySize⟩ ∧
      Decrypter c key src = ⟨[], some .badKeySize⟩) := by
  refine ⟨?_, ?_, ?_⟩
  · obtain ⟨pp, lines, hl, hk⟩ := parseconfig_ok_inv w fuel tr key h
    refine ⟨pp, lines, hl, ?_⟩
    rcases parseLines_ok_shape w key lines hk with h0 | ⟨pre, hx, h1, h2, h3⟩
    · exact Or.inl h0
    · refine Or.inr ⟨pre, hx, h1, ?_, h2, h3⟩
      rw [← hexDecodeString_isSome_iff, h2]
      rfl
  · intro n
    refine ⟨[["key", ⟨List.replicate (2 * n) '0'⟩]], List.replicate n 0, ?_, by simp⟩
    simp only [parseLines, parseLine_key_one, hexDecodeString, hexDecode_zeros]
  · intro hk c iv rnd src
    simp [Encrypter, Decrypter, hk]

/-- Witness of C6 as amended: the accepted config `key 00`. -/
theorem parseconfig_key_is_last_decoded_witness :
    parseconfig (demoWorld ["cryptstream", "encrypt"] "/" ["/cryptstream.conf"]
        [["key", "00"]]) 2 =
      some ([.stat "/cryptstream.conf", .tokenizeFile "/cryptstream.conf"], .ok [0]) ∧
    (¬ validKey [0] → ∀ (c : Cipher) (iv : Option Block) (rnd : Block) (src : List (List Byte)),
      Encrypter c [0] iv rnd src = ⟨[], some .badKeySize⟩ ∧
      Decrypter c [0] src = ⟨[], some .badKeySize⟩) :=
  ⟨rfl, (parseconfig_key_is_last_decoded (demoWorld ["cryptstream", "encrypt"] "/"
    ["/cryptstream.conf"] [["key", "00"]]) 2 _ [0] rfl).2.2⟩

/-! ### Texts without a line break -/

theorem lowerhexAt_mem (i : Nat) : lowerhexAt i ∈ lowerhex := by
  unfold lowerhexAt
  by_cases h : i < 16
  · interval_cases i <;> decide
  · have : lowerhex.length ≤ i := by simp [lowerhex]; omega
    rw [List.getD_eq_default _ _ this]
    decide

theorem lowerhex_ne_newline (ch : Char) (h : ch ∈ lowerhex) : ch ≠ '\n' := by
  intro hc
  subst hc
  revert h
  decide

theorem itoaLoop_mem (fuel n : Nat) (acc : List Char) (hacc : ∀ ch ∈ acc, ch ∈ lowerhex) :
    ∀ ch ∈ itoaLoop fuel n acc, ch ∈ lowerhex := by
  induction fuel generalizing n acc with
  | zero => simpa [itoaLoop] using hacc
  | succ fuel ih =>
    have hacc1 : ∀ ch ∈ lowerhexAt (n % 10) :: acc, ch ∈ lowerhex := by
      intro ch hch
      rcases List.mem_cons.mp hch with h | h
      · exact h ▸ lowerhexAt_mem _
      · exact hacc ch h
    simp only [itoaLoop]
    split
    · exact hacc1
    · exact ih _ _ hacc1

theorem itoa_no_newline (n : Nat) : '\n' ∉ (itoa n).data := by
  intro h
  exact lowerhex_ne_newline _ (itoaLoop_mem (n + 1) n [] (by simp) _ h) rfl

theorem hexDigits_mem (k r : Nat) : ∀ ch ∈ hexDigits k r, ch ∈ lowerhex := by
  induction k with
  | zero => simp [hexDigits]
  | succ k ih =>
    intro ch hch
    simp only [hexDigits, List.mem_cons] at hch
    rcases hch with h | h
    · exact h ▸ lowerhexAt_mem _
    · exact ih ch h

theorem hexDigits_no_newline (k r : Nat) : '\n' ∉ hexDigits k r :=
  fun h => lowerhex_ne_newline _ (hexDigits_mem k r _ h) rfl

theorem not_mem_ite {x : Char} {c : Prop} [Decidable c] {a b : List Char}
    (ha : x ∉ a) (hb : x ∉ b) : x ∉ (if c then a else b) := by
  split <;> assumption

theorem appendEscapedRune_no_newline (t : Char → Bool) (r : Char) :
    '\n' ∉ appendEscapedRune t r := by
  have hp : isPrint t '\n' = false := rfl
  have hx : ∀ k, '\n' ∉ '\\' :: 'x' :: hexDigits k r.toNat := fun k => by
    simp only [List.mem_cons, not_or]
    exact ⟨by decide, by decide, hexDigits_no_newline _ _⟩
  have hu : ∀ k, '\n' ∉ '\\' :: 'u' :: hexDigits k r.toNat := fun k => by
    simp only [List.mem_cons, not_or]
    exact ⟨by decide, by decide, hexDigits_no_newline _ _⟩
  have hU : ∀ k, '\n' ∉ '\\' :: 'U' :: hexDigits k r.toNat := fun k => by
    simp only [List.mem_cons, not_or]
    exact ⟨by decide, by decide, hexDigits_no_newline _ _⟩
  unfold appendEscapedRune
  by_cases h1 : r = '"' ∨ r = '\\'
  · rw [if_pos h1]
    rcases h1 with h | h <;> subst h <;> decide
  · rw [if_neg h1]
    by_cases h2 : isPrint t r = true
    · rw [if_pos h2]
      have : r ≠ '\n' := by
        intro h
        rw [h, hp] at h2
        exact Bool.false_ne_true h2
      simp only [List.mem_singleton]
      exact fun h => this h.symm
    · rw [if_neg h2]
      exact not_mem_ite (by decide) (not_mem_ite (by decide) (not_mem_ite (by decide)
        (not_mem_ite (by decide) (not_mem_ite (by decide) (not_mem_ite (by decide)
        (not_mem_ite (by decide) (not_mem_ite (hx 2) (not_mem_ite (hu 4) (hU 8)))))))))

theorem quote_no_newline (t : Char → Bool) (s : String) : '\n' ∉ (quote t s).data := by
  unfold quote
  simp only [List.mem_cons, List.mem_append, List.mem_flatMap, List.mem_singleton,
    List.not_mem_nil, or_false, not_or, not_exists, not_and]
  refine ⟨by decide, fun ch _ => appendEscapedRune_no_newline t ch, by decide⟩

theorem need_no_newline (w : World) (cmd : String) (t : List String) (n : Nat) (a : Abort)
    (h : need w cmd t n = .error a) :
    ∃ msg, a = .fail msg ∧ '\n' ∉ msg.data := by
  unfold need at h
  split at h
  · simp only [fail, Except.error.injEq] at h
    refine ⟨_, h.symm, ?_⟩
    simp only [String.data_append, List.mem_append, not_or]
    exact ⟨⟨⟨⟨⟨by decide, quote_no_newline _ _⟩, by decide⟩, itoa_no_newline _⟩, by decide⟩,
      itoa_no_newline _⟩
  · simp at h

theorem fmtHex_length (buf : List Byte) : (fmtHex buf).length = 2 * buf.length := by
  induction buf with
  | nil => rfl
  | cons b bs ih => simp only [fmtHex, List.length_cons, ih]; omega

theorem fmtHex_mem (buf : List Byte) : ∀ ch ∈ fmtHex buf, ch ∈ lowerhex := by
  induction buf with
  | nil => simp [fmtHex]
  | cons b bs ih =>
    intro ch hch
    simp only [fmtHex, List.mem_cons] at hch
    rcases hch with h | h | h
    · exact h ▸ lowerhexAt_mem _
    · exact h ▸ lowerhexAt_mem _
    · exact ih ch h

/-! ### Runs of `main` -/

theorem findconfigLoop_error (w : World) (name : String) (fuel : Nat) (p : String)
    (tr : List Event) (a : Abort) (h : findconfigLoop w name fuel p = some (tr, .error a)) :
    ∃ s, a = .fail s := by
  induction fuel generalizing p tr with
  | zero => simp [findconfigLoop] at h
  | succ fuel ih =>
    simp only [findconfigLoop] at h
    split at h
    · simp at h
    · split at h
      · simp only [fail, Option.some.injEq, Prod.mk.injEq, Except.error.injEq] at h
        exact ⟨_, h.2.symm⟩
      · split at h
        · simp at h
        · rename_i tr1 r hr
          simp only [Option.some.injEq, Prod.mk.injEq] at h
          rw [h.2] at hr
          exact ih _ _ hr

theorem parseconfig_error (w : World) (fuel : Nat) (tr : List Event) (a : Abort)
    (hw : tokenizerGivesTokens w) (h : parseconfig w fuel = some (tr, .error a)) :
    ∃ s, a = .fail s := by
  unfold parseconfig at h
  split at h
  · simp at h
  · rename_i tr1 a1 hf
    simp only [Option.some.injEq, Prod.mk.injEq, Except.error.injEq] at h
    rw [h.2] at hf
    have hp : ("" : String) ≠ "" → False := fun hne => hne rfl
    simp only [findconfig, ne_eq, not_true_eq_false, if_false] at hf
    exact findconfigLoop_error w _ fuel _ _ _ hf
  · rename_i tr1 pp hf
    split at h
    · simp only [fail, Option.some.injEq, Prod.mk.injEq, Except.error.injEq] at h
      exact ⟨_, h.2.symm⟩
    · rename_i lines hl
      simp only [Option.some.injEq, Prod.mk.injEq] at h
      cases a with
      | fail s => exact ⟨s, rfl⟩
      | panic s => exact absurd h.2 (parseLines_not_panic w [] lines (hw pp lines hl) s)

theorem parseconfig_of_findconfig (w : World) (fuel : Nat)
    (x : List Event × Except Abort String)
    (h : findconfig w fuel "" "cryptstream.conf" = some x) :
    ∃ r, parseconfig w fuel = some r := by
  unfold parseconfig
  rw [h]
  obtain ⟨tr, r⟩ := x
  cases r with
  | error a => exact ⟨_, rfl⟩
  | ok pp =>
    simp only
    cases w.tokenizeFile pp <;> exact ⟨_, rfl⟩

theorem parseconfig_terminates (w : World) (fuel : Nat) :
    ∃ r, parseconfig w (fuel + 2) = some r :=
  parseconfig_of_findconfig w (fuel + 2) _ (findconfig_empty w "cryptstream.conf" fuel)

theorem status_of_finish (tr : List Event) (out : List Byte) (r : Except Abort Unit)
    (hr : ∀ s, r ≠ .error (.panic s)) :
    ((finish tr out r).status = 0 ∧ (finish tr out r).stderr = "") ∨
      ((finish tr out r).status = 1 ∧ ∃ msg, (finish tr out r).stderr = msg ++ "\n") := by
  match r, hr with
  | .ok _, _ => exact Or.inl ⟨rfl, rfl⟩
  | .error (.fail s), _ => exact Or.inr ⟨rfl, s, rfl⟩
  | .error (.panic s), hr => exact absurd rfl (hr s)

theorem status_of_copy (tr : List Event) (key : List Byte) (r : Stream) :
    ((copyToStdout tr key r).status = 0 ∧ (copyToStdout tr key r).stderr = "") ∨
      ((copyToStdout tr key r).status = 1 ∧
        ∃ msg, (copyToStdout tr key r).stderr = msg ++ "\n") := by
  unfold copyToStdout
  apply status_of_finish
  intro s
  cases r.err <;> simp [fail]

theorem status_after_config (w : World) (fuel : Nat) (hw : tokenizerGivesTokens w)
    (f : List Event → List Byte → Run) (run : Run)
    (hf : ∀ tr key, ((f tr key).status = 0 ∧ (f tr key).stderr = "") ∨
      ((f tr key).status = 1 ∧ ∃ msg, (f tr key).stderr = msg ++ "\n"))
    (h : (match parseconfig w fuel with
      | none => none
      | some (tr, .error a) => some (finish tr [] (.error a))
      | some (tr, .ok key) => some (f tr key)) = some run) :
    (run.status = 0 ∧ run.stderr = "") ∨ (run.status = 1 ∧ ∃ msg, run.stderr = msg ++ "\n") := by
  cases hp : parseconfig w fuel with
  | none => rw [hp] at h; simp at h
  | some r =>
    obtain ⟨tr, k⟩ := r
    rw [hp] at h
    cases k with
    | error a =>
      obtain ⟨s, rfl⟩ := parseconfig_error w fuel tr a hw hp
      simp only [Option.some.injEq] at h
      rw [← h]
      exact Or.inr ⟨rfl, s, rfl⟩
    | ok key =>
      simp only [Option.some.injEq] at h
      rw [← h]
      exact hf tr key

theorem need_error (w : World) (cmd : String) (t : List String) (n : Nat) (a : Abort)
    (h : need w cmd t n = .error a) : ∀ s, (.error a : Except Abort Unit) ≠ .error (.panic s) := by
  obtain ⟨msg, rfl, _⟩ := need_no_newline w cmd t n a h
  intro s
  simp

theorem keySize_error (w : World) (args : List String) (a : Abort)
    (h : keySize w args = .error a) : ∃ s, a = .fail s := by
  unfold keySize at h
  split at h
  · simp at h
  · split_ifs at h
    simp only [fail, Except.error.injEq] at h
    exact ⟨_, h.symm⟩
  · simp only [usage, fail, Except.error.injEq] at h
    exact ⟨_, h.symm⟩

theorem caseEncrypt_status (w : World) (fuel : Nat) (hw : tokenizerGivesTokens w)
    (cmd : String) (args : List String) (run : Run) (h : caseEncrypt w fuel cmd args = some run) :
    (run.status = 0 ∧ run.stderr = "") ∨ (run.status = 1 ∧ ∃ msg, run.stderr = msg ++ "\n") := by
  unfold caseEncrypt at h
  cases hn : need w cmd args 0 with
  | error a =>
    rw [hn] at h
    simp only [Option.some.injEq] at h
    rw [← h]
    exact status_of_finish _ _ _ (need_error _ _ _ _ a hn)
  | ok u =>
    rw [hn] at h
    exact status_after_config w fuel hw _ run (fun tr key => status_of_copy tr key _) h

theorem caseDecrypt_status (w : World) (fuel : Nat) (hw : tokenizerGivesTokens w)
    (cmd : String) (args : List String) (run : Run) (h : caseDecrypt w fuel cmd args = some run) :
    (run.status = 0 ∧ run.stderr = "") ∨ (run.status = 1 ∧ ∃ msg, run.stderr = msg ++ "\n") := by
  unfold caseDecrypt at h
  cases hn : need w cmd args 0 with
  | error a =>
    rw [hn] at h
    simp only [Option.some.injEq] at h
    rw [← h]
    exact status_of_finish _ _ _ (need_error _ _ _ _ a hn)
  | ok u =>
    rw [hn] at h
    exact status_after_config w fuel hw _ run (fun tr key => status_of_copy tr key _) h

theorem caseKey_status (w : World) (args : List String) :
    ((caseKey w args).status = 0 ∧ (caseKey w args).stderr = "") ∨
      ((caseKey w args).status = 1 ∧ ∃ msg, (caseKey w args).stderr = msg ++ "\n") := by
  unfold caseKey
  cases hk : keySize w args with
  | error a =>
    obtain ⟨s, rfl⟩ := keySize_error w _ a hk
    exact Or.inr ⟨rfl, s, rfl⟩
  | ok n => exact Or.inl ⟨rfl, rfl⟩

theorem main_unfold (w : World) (fuel : Nat) :
    main w fuel =
      if w.args.length < 2 then some (finish [] [] usage)
      else if w.args.getD 1 "" = "encrypt" then
        caseEncrypt w fuel (w.args.getD 1 "") (w.args.drop 2)
      else if w.args.getD 1 "" = "decrypt" then
        caseDecrypt w fuel (w.args.getD 1 "") (w.args.drop 2)
      else if w.args.getD 1 "" = "key" then some (caseKey w (w.args.drop 2))
      else some (finish [] [] usage) := rfl

theorem main_status (w : World) (fuel : Nat) (hw : tokenizerGivesTokens w) (run : Run)
    (h : main w fuel = some run) :
    (run.status = 0 ∧ run.stderr = "") ∨ (run.status = 1 ∧ ∃ msg, run.stderr = msg ++ "\n") := by
  rw [main_unfold] at h
  split_ifs at h
  · simp only [Option.some.injEq] at h
    rw [← h]
    exact Or.inr ⟨rfl, _, rfl⟩
  · exact caseEncrypt_status w fuel hw _ _ run h
  · exact caseDecrypt_status w fuel hw _ _ run h
  · simp only [Option.some.injEq] at h
    rw [← h]
    exact caseKey_status w _
  · simp only [Option.some.injEq] at h
    rw [← h]
    exact Or.inr ⟨rfl, _, rfl⟩

theorem main_terminates (w : World) (fuel : Nat) : ∃ run, main w (fuel + 2) = some run := by
  obtain ⟨r, hr⟩ := parseconfig_terminates w fuel
  obtain ⟨tr, k⟩ := r
  rw [main_unfold]
  split_ifs
  · exact ⟨_, rfl⟩
  · unfold caseEncrypt
    rw [hr]
    cases need w _ _ 0 <;> cases k <;> exact ⟨_, rfl⟩
  · unfold caseDecrypt
    rw [hr]
    cases need w _ _ 0 <;> cases k <;> exact ⟨_, rfl⟩
  · exact ⟨_, rfl⟩
  · exact ⟨_, rfl⟩

theorem usage_failsAtOnce : failsAtOnce (some (finish [] [] usage)) :=
  ⟨"usage: cryptstream [encrypt | decrypt | key [128 | 192 | 256]]", by decide, rfl⟩

theorem main_no_subcommand (w : World) (fuel : Nat) (h : w.args.length < 2) :
    main w fuel = some (finish [] [] usage) := by
  rw [main_unfold, if_pos h]

theorem main_unknown (w : World) (fuel : Nat) (prog cmd : String) (rest : List String)
    (h : w.args = prog :: cmd :: rest) (h1 : cmd ≠ "encrypt") (h2 : cmd ≠ "decrypt")
    (h3 : cmd ≠ "key") : main w fuel = some (finish [] [] usage) := by
  rw [main_unfold]
  simp [h, h1, h2, h3]

theorem main_extra_args (w : World) (fuel : Nat) (prog cmd : String) (rest : List String)
    (h : w.args = prog :: cmd :: rest) (hc : cmd = "encrypt" ∨ cmd = "decrypt")
    (hr : rest ≠ []) : failsAtOnce (main w fuel) := by
  have hlen : rest.length ≠ 0 := fun h0 => hr (List.length_eq_zero.mp h0)
  have hneed : need w cmd rest 0 = fail ("bad parameters for " ++ quote w.printTable cmd ++
      ", expected " ++ itoa 0 ++ ", saw " ++ itoa rest.length) := by
    simp [need, hlen]
  obtain ⟨msg, hm, hnl⟩ := need_no_newline w cmd rest 0 _ hneed
  have hd : ("decrypt" : String) ≠ "encrypt" := by decide
  have hl : ¬ (prog :: cmd :: rest).length < 2 := by simp
  refine ⟨msg, hnl, ?_⟩
  rw [main_unfold, h, if_neg hl]
  simp only [List.getD_cons_succ, List.getD_cons_zero, List.drop_succ_cons, List.drop_zero]
  rcases hc with hc | hc
  · subst hc
    rw [if_pos rfl]
    unfold caseEncrypt
    rw [hneed]
    simp only [fail, hm, finish]
  · subst hc
    rw [if_neg hd, if_pos rfl]
    unfold caseDecrypt
    rw [hneed]
    simp only [fail, hm, finish]

/-! ### The subcommand `key` -/

theorem main_key (w : World) (fuel : Nat) (prog : String) (rest : List String)
    (h : w.args = prog :: "key" :: rest) : main w fuel = some (caseKey w rest) := by
  have hl : ¬ (prog :: "key" :: rest).length < 2 := by simp
  have h1 : ("key" : String) ≠ "encrypt" := by decide
  have h2 : ("key" : String) ≠ "decrypt" := by decide
  rw [main_unfold, h, if_neg hl]
  simp only [List.getD_cons_succ, List.getD_cons_zero, List.drop_succ_cons, List.drop_zero]
  rw [if_neg h1, if_neg h2, if_pos trivial]

theorem caseKey_of_size (w : World) (args : List String) (n : Nat)
    (hk : keySize w args = .ok n) :
    caseKey w args =
      ⟨[.randRead n], textBytes (fmtHex ((List.range n).map w.random) ++ ['\n']), "", 0⟩ := by
  simp only [caseKey, hk, randRead]
  rfl

theorem keySize_bits (w : World) (rest : List String) (bits : Nat)
    (hb : bits = 128 ∨ bits = 192 ∨ bits = 256)
    (hr : rest = [itoa bits] ∨ (rest = [] ∧ bits = 256)) :
    keySize w rest = .ok (bits / 8) := by
  rcases hr with hr | ⟨hr, hb2⟩
  · rcases hb with hb | hb | hb <;> subst hb <;> subst hr <;> rfl
  · subst hr hb2
    rfl

theorem caseKey_bad_size (w : World) (a : String) (h1 : a ≠ "128") (h2 : a ≠ "192")
    (h3 : a ≠ "256") :
    caseKey w [a] = ⟨[], [], "bad size " ++ quote w.printTable a ++ "\n", 1⟩ := by
  simp only [caseKey, keySize, h1, h2, h3, if_false]
  rfl

theorem caseKey_usage (w : World) (rest : List String) (h : 2 ≤ rest.length) :
    caseKey w rest =
      ⟨[], [], "usage: cryptstream [encrypt | decrypt | key [128 | 192 | 256]]\n", 1⟩ := by
  match rest, h with
  | a :: b :: more, _ => rfl

theorem fmtHex_getElem (buf : List Byte) (i : Nat) (hi : i < buf.length) :
    (fmtHex buf)[2 * i]? = some (lowerhexAt ((buf.get ⟨i, hi⟩).val / 16)) ∧
    (fmtHex buf)[2 * i + 1]? = some (lowerhexAt ((buf.get ⟨i, hi⟩).val % 16)) := by
  induction buf generalizing i with
  | nil => simp at hi
  | cons b bs ih =>
    cases i with
    | zero => exact ⟨by simp [fmtHex], by simp [fmtHex]⟩
    | succ i =>
      have hi2 : i < bs.length := by simpa using hi
      have e1 : 2 * (i + 1) = 2 * i + 1 + 1 := by ring
      have e2 : 2 * (i + 1) + 1 = (2 * i + 1) + 1 + 1 := by ring
      obtain ⟨h1, h2⟩ := ih i hi2
      refine ⟨?_, ?_⟩
      · rw [e1]
        simp only [fmtHex, List.getElem?_cons_succ, List.get_eq_getElem, List.getElem_cons_succ]
        simpa using h1
      · rw [e2]
        simp only [fmtHex, List.getElem?_cons_succ, List.get_eq_getElem, List.getElem_cons_succ]
        simpa using h2

theorem lowerhexAt_code (d : Nat) (hd : d < 16) :
    ((Fin.ofNat (lowerhexAt d).toNat : Byte)).val =
      if d < 10 then '0'.toNat + d else 'a'.toNat + (d - 10) := by
  interval_cases d <;> rfl

theorem key_output (w : World) (n : Nat) :
    (textBytes (fmtHex ((List.range n).map w.random) ++ ['\n'])).length = 2 * n + 1 ∧
    (textBytes (fmtHex ((List.range n).map w.random) ++ ['\n']))[2 * n]? = some 10 ∧
    (∀ i, i < n →
      ((textBytes (fmtHex ((List.range n).map w.random) ++ ['\n']))[2 * i]?).map Fin.val =
        some (if (w.random i).val / 16 < 10 then '0'.toNat + (w.random i).val / 16
          else 'a'.toNat + ((w.random i).val / 16 - 10)) ∧
      ((textBytes (fmtHex ((List.range n).map w.random) ++ ['\n']))[2 * i + 1]?).map Fin.val =
        some (if (w.random i).val % 16 < 10 then '0'.toNat + (w.random i).val % 16
          else 'a'.toNat + ((w.random i).val % 16 - 10))) := by
  have hlen : (fmtHex ((List.range n).map w.random)).length = 2 * n := by
    rw [fmtHex_length, List.length_map, List.length_range]
  refine ⟨?_, ?_, ?_⟩
  · simp only [textBytes, List.length_map, List.length_append, hlen, List.length_singleton]
  · simp only [textBytes, List.map_append, List.map_cons, List.map_nil]
    rw [List.getElem?_append_right (by rw [List.length_map, hlen])]
    rw [List.length_map, hlen]
    simp
    rfl
  · intro i hi
    have hi2 : i < ((List.range n).map w.random).length := by
      rw [List.length_map, List.length_range]; exact hi
    obtain ⟨h1, h2⟩ := fmtHex_getElem _ i hi2
    have hget : ((List.range n).map w.random).get ⟨i, hi2⟩ = w.random i := by
      simp
    rw [hget] at h1 h2
    have hd1 : (w.random i).val / 16 < 16 := by
      have := (w.random i).isLt; omega
    have hd2 : (w.random i).val % 16 < 16 := Nat.mod_lt _ (by norm_num)
    simp only [textBytes, List.map_append]
    rw [List.getElem?_append_left (by rw [List.length_map, hlen]; omega),
      List.getElem?_append_left (by rw [List.length_map, hlen]; omega),
      List.getElem?_map, List.getElem?_map, h1, h2]
    simp only [Option.map_some']
    rw [lowerhexAt_code _ hd1, lowerhexAt_code _ hd2]
    exact ⟨rfl, rfl⟩

/-- C4: the subcommand `key` without argument asks the random source for
n = 32 bytes, with the argument "128", "192" or "256" for n = 16, 24 or 32
bytes, so that 8*n is the number of bits asked for and n is a key length of
the cipher; it writes 2*n+1 bytes to stdout, nothing to stderr and exits with
status 0: byte 2*i and byte 2*i+1 of the output are the ASCII codes of the
lower-case hexadecimal digits of the high and the low half of the i-th random
byte, and the last byte is the line break. Another single argument fails with
`bad size`, two or more arguments with the usage message, both with status 1
and nothing on stdout. -/
theorem key_subcommand_sizes (w : World) (fuel : Nat) (prog : String) (rest : List String)
    (hargs : w.args = prog :: "key" :: rest) :
    (∀ bits, bits = 128 ∨ bits = 192 ∨ bits = 256 →
      rest = [itoa bits] ∨ (rest = [] ∧ bits = 256) →
      ∃ (n : Nat) (out : List Byte),
        8 * n = bits ∧ (n = 16 ∨ n = 24 ∨ n = 32) ∧
        main w fuel = some ⟨[.randRead n], out, "", 0⟩ ∧
        out.length = 2 * n + 1 ∧
        out[2 * n]? = some 10 ∧
        (∀ i, i < n →
          (out[2 * i]?).map Fin.val =
            some (if (w.random i).val / 16 < 10 then '0'.toNat + (w.random i).val / 16
              else 'a'.toNat + ((w.random i).val / 16 - 10)) ∧
          (out[2 * i + 1]?).map Fin.val =
            some (if (w.random i).val % 16 < 10 then '0'.toNat + (w.random i).val % 16
              else 'a'.toNat + ((w.random i).val % 16 - 10)))) ∧
    (∀ a, rest = [a] → a ≠ "128" → a ≠ "192" → a ≠ "256" →
      main w fuel = some ⟨[], [], "bad size " ++ quote w.printTable a ++ "\n", 1⟩) ∧
    (2 ≤ rest.length →
      main w fuel =
        some ⟨[], [], "usage: cryptstream [encrypt | decrypt | key [128 | 192 | 256]]\n", 1⟩) := by
  rw [main_key w fuel prog rest hargs]
  refine ⟨fun bits hb hr => ?_, fun a ha h1 h2 h3 => ?_, fun h2 => ?_⟩
  · have hk := keySize_bits w rest bits hb hr
    obtain ⟨o1, o2, o3⟩ := key_output w (bits / 8)
    refine ⟨bits / 8, _, ?_, ?_, by rw [caseKey_of_size w rest _ hk], o1, o2, o3⟩
    · rcases hb with hb | hb | hb <;> subst hb <;> rfl
    · rcases hb with hb | hb | hb <;> subst hb <;> decide
  · subst ha
    rw [caseKey_bad_size w a h1 h2 h3]
  · rw [caseKey_usage w rest h2]

/-- Witness of C4: `cryptstream key 128` in a world whose random source yields
zero bytes prints 32 digits `0` and a line break. -/
theorem key_subcommand_sizes_witness :
    (demoWorld ["cryptstream", "key", "128"] "/" [] []).args =
      "cryptstream" :: "key" :: ["128"] ∧
    main (demoWorld ["cryptstream", "key", "128"] "/" [] []) 0 =
      some ⟨[.randRead 16], List.replicate 32 48 ++ [10], "", 0⟩ ∧
    ∃ (n : Nat) (out : List Byte),
      8 * n = 128 ∧ (n = 16 ∨ n = 24 ∨ n = 32) ∧
      main (demoWorld ["cryptstream", "key", "128"] "/" [] []) 0 =
        some ⟨[.randRead n], out, "", 0⟩ ∧
      out.length = 2 * n + 1 ∧
      out[2 * n]? = some 10 ∧
      (∀ i, i < n →
        (out[2 * i]?).map Fin.val =
          some (if ((demoWorld ["cryptstream", "key", "128"] "/" [] []).random i).val / 16 < 10
            then '0'.toNat + ((demoWorld ["cryptstream", "key", "128"] "/" [] []).random i).val / 16
            else 'a'.toNat +
              (((demoWorld ["cryptstream", "key", "128"] "/" [] []).random i).val / 16 - 10)) ∧
        (out[2 * i + 1]?).map Fin.val =
          some (if ((demoWorld ["cryptstream", "key", "128"] "/" [] []).random i).val % 16 < 10
            then '0'.toNat + ((demoWorld ["cryptstream", "key", "128"] "/" [] []).random i).val % 16
            else 'a'.toNat +
              (((demoWorld ["cryptstream", "key", "128"] "/" [] []).random i).val % 16 - 10))) :=
  ⟨rfl, rfl, (key_subcommand_sizes (demoWorld ["cryptstream", "key", "128"] "/" [] []) 0
    "cryptstream" ["128"] rfl).1 128 (Or.inl rfl) (Or.inl rfl)⟩

/-! ### The failure paths of `encrypt` and `decrypt` -/

theorem parseconfig_found (w : World) (fuel : Nat) (tr : List Event) (pp : String)
    (h : findconfig w fuel "" "cryptstream.conf" = some (tr, .ok pp)) :
    parseconfig w fuel =
      some (tr ++ [.tokenizeFile pp],
        match w.tokenizeFile pp with
        | .error err => fail err
        | .ok lines => parseLines w [] lines) := by
  unfold parseconfig
  rw [h]
  simp only
  cases w.tokenizeFile pp <;> rfl

theorem parseconfig_not_found (w : World) (fuel : Nat) (tr : List Event) (a : Abort)
    (h : findconfig w fuel "" "cryptstream.conf" = some (tr, .error a)) :
    parseconfig w fuel = some (tr, .error a) := by
  unfold parseconfig
  rw [h]

theorem need_zero_nil (w : World) (cmd : String) : need w cmd [] 0 = .ok () := by
  simp [need]

theorem main_encrypt (w : World) (fuel : Nat) (prog : String)
    (h : w.args = [prog, "encrypt"]) :
    main w fuel =
      match parseconfig w fuel with
      | none => none
      | some (tr, .error a) => some (finish tr [] (.error a))
      | some (tr, .ok key) =>
        some (copyToStdout tr key (Encrypter w.cipher key none (randomBlock w) w.stdin)) := by
  have hl : ¬ ([prog, "encrypt"] : List String).length < 2 := by simp
  rw [main_unfold, h, if_neg hl]
  simp only [List.getD_cons_succ, List.getD_cons_zero, List.drop_succ_cons, List.drop_zero]
  rw [if_pos trivial]
  unfold caseEncrypt
  rw [need_zero_nil]

theorem main_decrypt (w : World) (fuel : Nat) (prog : String)
    (h : w.args = [prog, "decrypt"]) :
    main w fuel =
      match parseconfig w fuel with
      | none => none
      | some (tr, .error a) => some (finish tr [] (.error a))
      | some (tr, .ok key) => some (copyToStdout tr key (Decrypter w.cipher key w.stdin)) := by
  have hl : ¬ ([prog, "decrypt"] : List String).length < 2 := by simp
  have hd : ("decrypt" : String) ≠ "encrypt" := by decide
  rw [main_unfold, h, if_neg hl]
  simp only [List.getD_cons_succ, List.getD_cons_zero, List.drop_succ_cons, List.drop_zero]
  rw [if_neg hd, if_pos trivial]
  unfold caseDecrypt
  rw [need_zero_nil]

theorem main_crypt (w : World) (fuel : Nat) (prog cmd : String)
    (h : w.args = [prog, cmd]) (hc : cmd = "encrypt" ∨ cmd = "decrypt") :
    main w fuel =
      match parseconfig w fuel with
      | none => none
      | some (tr, .error a) => some (finish tr [] (.error a))
      | some (tr, .ok key) =>
        some (copyToStdout tr key
          (if cmd = "encrypt" then Encrypter w.cipher key none (randomBlock w) w.stdin
            else Decrypter w.cipher key w.stdin)) := by
  have hd : ("decrypt" : String) ≠ "encrypt" := by decide
  rcases hc with hc | hc
  · subst hc
    rw [main_encrypt w fuel prog h]
    simp only [if_true]
  · subst hc
    rw [main_decrypt w fuel prog h]
    simp only [hd, if_false]

theorem main_config_not_found (w : World) (fuel : Nat) (prog cmd : String)
    (h : w.args = [prog, cmd]) (hc : cmd = "encrypt" ∨ cmd = "decrypt")
    (h1 : w.stat "/cryptstream.conf" = .notExist)
    (h2 : w.stat "./cryptstream.conf" = .notExist) :
    main w (fuel + 2) =
      some ⟨[.stat "/cryptstream.conf", .stat "./cryptstream.conf"], [],
        "could not find cryptstream.conf\n", 1⟩ := by
  have e1 : ("/" : String) ++ "cryptstream.conf" = "/cryptstream.conf" := by decide
  have e2 : ("./" : String) ++ "cryptstream.conf" = "./cryptstream.conf" := by decide
  have hf := findconfig_empty w "cryptstream.conf" fuel
  rw [e1, e2, h1, h2] at hf
  simp only [ne_eq, not_true_eq_false, if_false] at hf
  rw [main_crypt w (fuel + 2) prog cmd h hc, parseconfig_not_found w (fuel + 2) _ _ hf]
  rfl

theorem main_tokenize_error (w : World) (fuel : Nat) (prog cmd : String)
    (h : w.args = [prog, cmd]) (hc : cmd = "encrypt" ∨ cmd = "decrypt")
    (tr : List Event) (pp : String)
    (hf : findconfig w fuel "" "cryptstream.conf" = some (tr, .ok pp))
    (err : String) (ht : w.tokenizeFile pp = .error err) :
    main w fuel = some ⟨tr ++ [.tokenizeFile pp], [], err ++ "\n", 1⟩ := by
  rw [main_crypt w fuel prog cmd h hc, parseconfig_found w fuel tr pp hf, ht]
  rfl

theorem main_parse_error (w : World) (fuel : Nat) (prog cmd : String)
    (h : w.args = [prog, cmd]) (hc : cmd = "encrypt" ∨ cmd = "decrypt")
    (tr : List Event) (pp : String)
    (hf : findconfig w fuel "" "cryptstream.conf" = some (tr, .ok pp))
    (lines : List (List String)) (ht : w.tokenizeFile pp = .ok lines)
    (s : String) (hp : parseLines w [] lines = .error (.fail s)) :
    main w fuel = some ⟨tr ++ [.tokenizeFile pp], [], s ++ "\n", 1⟩ := by
  rw [main_crypt w fuel prog cmd h hc, parseconfig_found w fuel tr pp hf, ht]
  simp only [hp]
  rfl

theorem main_stream (w : World) (fuel : Nat) (prog cmd : String)
    (h : w.args = [prog, cmd]) (hc : cmd = "encrypt" ∨ cmd = "decrypt")
    (tr : List Event) (pp : String)
    (hf : findconfig w fuel "" "cryptstream.conf" = some (tr, .ok pp))
    (lines : List (List String)) (ht : w.tokenizeFile pp = .ok lines)
    (key : List Byte) (hp : parseLines w [] lines = .ok key) (strm : Stream)
    (hs : strm = if cmd = "encrypt" then Encrypter w.cipher key none (randomBlock w) w.stdin
      else Decrypter w.cipher key w.stdin) :
    (strm.err = none →
      main w fuel =
        some ⟨tr ++ [.tokenizeFile pp] ++ (if validKey key then [.readStdin] else []),
          strm.bytes, "", 0⟩) ∧
    (∀ e, strm.err = some e →
      main w fuel =
        some ⟨tr ++ [.tokenizeFile pp] ++ (if validKey key then [.readStdin] else []),
          strm.bytes, e.text ++ "\n", 1⟩) := by
  have hm : main w fuel = some (copyToStdout (tr ++ [.tokenizeFile pp]) key strm) := by
    rw [main_crypt w fuel prog cmd h hc, parseconfig_found w fuel tr pp hf, ht]
    simp only [hp, hs]
  have htr : (if validKey key then tr ++ [.tokenizeFile pp] ++ [.readStdin]
      else tr ++ [.tokenizeFile pp]) =
      tr ++ [.tokenizeFile pp] ++ (if validKey key then [.readStdin] else []) := by
    split <;> simp
  rw [hm]
  refine ⟨fun he => ?_, fun e he => ?_⟩
  · simp only [copyToStdout, he, htr]
    rfl
  · simp only [copyToStdout, he, htr]
    rfl

/-- C5 fails as stated: when `tokenize.File` returns a line without tokens,
`parseconfig` reads `t[0]` of an empty slice; the run of `encrypt` ends in a
run-time panic with exit status 2, not through `fail` with status 1 and not
with status 0. -/
theorem main_panic_counterexample :
    ¬ tokenizerGivesTokens
      (demoWorld ["cryptstream", "encrypt"] "/" ["/cryptstream.conf"] [[]]) ∧
    ∃ run, main (demoWorld ["cryptstream", "encrypt"] "/" ["/cryptstream.conf"] [[]]) 2 =
        some run ∧
      run.trace = [.stat "/cryptstream.conf", .tokenizeFile "/cryptstream.conf"] ∧
      run.stdout = [] ∧ run.status = 2 ∧
      ¬ ((run.status = 0 ∧ run.stderr = "") ∨
        (run.status = 1 ∧ ∃ msg, run.stderr = msg ++ "\n")) := by
  refine ⟨fun h => h "/cryptstream.conf" [[]] rfl [] (by simp) rfl, _, rfl, rfl, rfl, rfl, ?_⟩
  rintro (⟨h, _⟩ | ⟨h, _⟩) <;> exact absurd h (by decide)

/-- C5 as amended: an argument vector without a subcommand, with a subcommand
other than `encrypt`, `decrypt`, `key`, or with extra arguments after
`encrypt` or `decrypt` makes `main` fail at once: no lookup or parse of the
config file, no read of stdin, nothing on stdout, one line on stderr, exit
status 1. Every run ends when the loop of `findconfig` may take two turns. In
a world whose tokenizer returns no line without tokens every run ends either
with status 0 and nothing on stderr or with status 1 and a message and a line
break on stderr. The failure paths go through `fail`: a config file that is
not found, the error of the tokenizer, the failure of a config line, the error
of the `Encrypter` or `Decrypter` stream after the bytes it delivered, a bad
size and too many arguments of `key` each give status 1 with their message;
a stream that ends without error gives status 0. -/
theorem main_failure_exit (w : World) (fuel : Nat) :
    (w.args.length < 2 → failsAtOnce (main w fuel)) ∧
    (∀ prog cmd rest, w.args = prog :: cmd :: rest →
      cmd ≠ "encrypt" → cmd ≠ "decrypt" → cmd ≠ "key" → failsAtOnce (main w fuel)) ∧
    (∀ prog cmd rest, w.args = prog :: cmd :: rest →
      cmd = "encrypt" ∨ cmd = "decrypt" → rest ≠ [] → failsAtOnce (main w fuel)) ∧
    (∃ run, main w (fuel + 2) = some run) ∧
    (tokenizerGivesTokens w → ∀ run, main w fuel = some run →
      (run.status = 0 ∧ run.stderr = "") ∨
        (run.status = 1 ∧ ∃ msg, run.stderr = msg ++ "\n")) ∧
    (∀ prog cmd, w.args = [prog, cmd] → cmd = "encrypt" ∨ cmd = "decrypt" →
      (w.stat "/cryptstream.conf" = .notExist → w.stat "./cryptstream.conf" = .notExist →
        main w (fuel + 2) =
          some ⟨[.stat "/cryptstream.conf", .stat "./cryptstream.conf"], [],
            "could not find cryptstream.conf\n", 1⟩) ∧
      (∀ tr pp, findconfig w fuel "" "cryptstream.conf" = some (tr, .ok pp) →
        (∀ err, w.tokenizeFile pp = .error err →
          main w fuel = some ⟨tr ++ [.tokenizeFile pp], [], err ++ "\n", 1⟩) ∧
        (∀ lines, w.tokenizeFile pp = .ok lines →
          (∀ s, parseLines w [] lines = .error (.fail s) →
            main w fuel = some ⟨tr ++ [.tokenizeFile pp], [], s ++ "\n", 1⟩) ∧
          (∀ key, parseLines w [] lines = .ok key →
            ∀ strm : Stream,
              strm = (if cmd = "encrypt" then
                  Encrypter w.cipher key none (randomBlock w) w.stdin
                else Decrypter w.cipher key w.stdin) →
              (strm.err = none →
                main w fuel =
                  some ⟨tr ++ [.tokenizeFile pp] ++
                      (if validKey key then [.readStdin] else []),
                    strm.bytes, "", 0⟩) ∧
              (∀ e, strm.err = some e →
                main w fuel =
                  some ⟨tr ++ [.tokenizeFile pp] ++
                      (if validKey key then [.readStdin] else []),
                    strm.bytes, e.text ++ "\n", 1⟩))))) ∧
    (∀ prog rest, w.args = prog :: "key" :: rest →
      (∀ a, rest = [a] → a ≠ "128" → a ≠ "192" → a ≠ "256" →
        main w fuel = some ⟨[], [], "bad size " ++ quote w.printTable a ++ "\n", 1⟩) ∧
      (2 ≤ rest.length →
        main w fuel =
          some ⟨[], [], "usage: cryptstream [encrypt | decrypt | key [128 | 192 | 256]]\n",
            1⟩)) := by
  refine ⟨fun h => ?_, fun prog cmd rest h h1 h2 h3 => ?_,
    fun prog cmd rest h hc hr => main_extra_args w fuel prog cmd rest h hc hr,
    main_terminates w fuel, fun hw run h => main_status w fuel hw run h,
    fun prog cmd h hc => ⟨main_config_not_found w fuel prog cmd h hc, fun tr pp hf =>
      ⟨main_tokenize_error w fuel prog cmd h hc tr pp hf, fun lines ht =>
        ⟨main_parse_error w fuel prog cmd h hc tr pp hf lines ht, fun key hp strm hs =>
          main_stream w fuel prog cmd h hc tr pp hf lines ht key hp strm hs⟩⟩⟩,
    fun prog rest h => ⟨fun a ha h1 h2 h3 => ?_, fun h2 => ?_⟩⟩
  · rw [main_no_subcommand w fuel h]
    exact usage_failsAtOnce
  · rw [main_unknown w fuel prog cmd rest h h1 h2 h3]
    exact usage_failsAtOnce
  · subst ha
    rw [main_key w fuel prog [a] h, caseKey_bad_size w a h1 h2 h3]
  · rw [main_key w fuel prog rest h, caseKey_usage w rest h2]

/-- Witness of C5 as amended: `cryptstream encrypt extra` fails at once with
the message of `need`; `cryptstream decrypt` with a key of 16 bytes and an
empty stdin fails through `fail` with the error of the stream. -/
theorem main_failure_exit_witness :
    main (demoWorld ["cryptstream", "encrypt", "extra"] "/" [] []) 0 =
      some ⟨[], [], "bad parameters for \"encrypt\", expected 0, saw 1\n", 1⟩ ∧
    failsAtOnce (main (demoWorld ["cryptstream", "encrypt", "extra"] "/" [] []) 0) ∧
    main (demoWorld ["cryptstream", "decrypt"] "/" ["/cryptstream.conf"]
        [["key", "e835dc07aeb177466ad54d1e91f4a648"]]) 2 =
      some ⟨[.stat "/cryptstream.conf", .tokenizeFile "/cryptstream.conf", .readStdin], [],
        "CorruptStream\n", 1⟩ :=
  ⟨rfl, (main_failure_exit (demoWorld ["cryptstream", "encrypt", "extra"] "/" [] []) 0).2.2.1
    "cryptstream" "encrypt" ["extra"] rfl (Or.inl rfl) (by simp),
    ((((main_failure_exit (demoWorld ["cryptstream", "decrypt"] "/" ["/cryptstream.conf"]
        [["key", "e835dc07aeb177466ad54d1e91f4a648"]]) 2).2.2.2.2.2.1
      "cryptstream" "decrypt" rfl (Or.inr rfl)).2
      [.stat "/cryptstream.conf"] "/cryptstream.conf" rfl).2
      [["key", "e835dc07aeb177466ad54d1e91f4a648"]] rfl).2 key128 rfl
      ⟨[], some .corruptStream⟩ rfl |>.2 .corruptStream rfl⟩

/-! ### Blocks -/

theorem byte_xor_cancel (x y : Byte) : (x ^^^ y) ^^^ y = x := by
  apply Fin.ext
  have hx : x.val < 2 ^ 8 := x.isLt
  have hy : y.val < 2 ^ 8 := y.isLt
  have hxy : x.val ^^^ y.val < 2 ^ 8 := Nat.xor_lt_two_pow hx hy
  have h256 : (2 : Nat) ^ 8 = 256 := by norm_num
  have e1 : (x.val ^^^ y.val) % 256 = x.val ^^^ y.val := Nat.mod_eq_of_lt (by omega)
  show ((x.val ^^^ y.val) % 256 ^^^ y.val) % 256 = x.val
  rw [e1, Nat.xor_assoc, Nat.xor_self, Nat.xor_zero]
  exact Nat.mod_eq_of_lt x.isLt

theorem zipWith_xor_cancel (a b : List Byte) (h : a.length = b.length) :
    List.zipWith (fun x y => x ^^^ y) (List.zipWith (fun x y => x ^^^ y) a b) b = a := by
  induction a generalizing b with
  | nil => simp
  | cons x xs ih =>
    match b, h with
    | y :: ys, h =>
      simp only [List.zipWith_cons_cons, List.cons.injEq]
      exact ⟨byte_xor_cancel x y, ih ys (by simpa using h)⟩

theorem xorBlock_cancel (a b : Block) : xorBlock (xorBlock a b) b = a := by
  apply Subtype.ext
  exact zipWith_xor_cancel a.1 b.1 (by rw [a.2, b.2])

theorem decryptBlock_encryptBlock (c : Cipher) (key : List Byte)
    (hinv : ∀ b, c.decrypt key (c.encrypt key b) = b) (b prev : Block) :
    decryptBlock c key (encryptBlock c key b prev) prev = b := by
  unfold decryptBlock encryptBlock
  rw [hinv, xorBlock_cancel]

theorem takeBlock_short (acc : List Byte) (h : acc.length < 16) : takeBlock acc = none := by
  unfold takeBlock
  rw [dif_neg (by omega)]

theorem takeBlock_block (b : Block) (more : List Byte) :
    takeBlock (b.1 ++ more) = some (b, more) := by
  have hl : 16 ≤ (b.1 ++ more).length := by rw [List.length_append, b.2]; omega
  unfold takeBlock
  rw [dif_pos hl]
  have h1 : (b.1 ++ more).take 16 = b.1 := by
    rw [List.take_append_of_le_length (by rw [b.2]), List.take_of_length_le (by rw [b.2])]
  have h2 : (b.1 ++ more).drop 16 = more := List.drop_left' b.2
  simp only [Option.some.injEq, Prod.mk.injEq]
  exact ⟨Subtype.ext h1, h2⟩

theorem split_block (acc : List Byte) (h : 16 ≤ acc.length) :
    ∃ (b : Block) (rest : List Byte), acc = b.1 ++ rest :=
  ⟨⟨acc.take 16, by rw [List.length_take]; omega⟩, acc.drop 16, (List.take_append_drop 16 acc).symm⟩

/-! ### The encryption side -/

theorem encDrain_fuel (c : Cipher) (key : List Byte) (f1 f2 : Nat) (s : EncState)
    (h1 : s.acc.length ≤ f1) (h2 : s.acc.length ≤ f2) :
    encDrain c key f1 s = encDrain c key f2 s := by
  induction f1 generalizing f2 s with
  | zero =>
    have hs : takeBlock s.acc = none := takeBlock_short _ (by omega)
    cases f2 with
    | zero => rfl
    | succ f2 => simp [encDrain, hs]
  | succ f1 ih =>
    by_cases hlen : s.acc.length < 16
    · have hs : takeBlock s.acc = none := takeBlock_short _ hlen
      cases f2 with
      | zero => simp [encDrain, hs]
      | succ f2 => simp [encDrain, hs]
    · obtain ⟨b, rest, hb⟩ := split_block s.acc (by omega)
      have hs : takeBlock s.acc = some (b, rest) := by rw [hb]; exact takeBlock_block b rest
      have hr : rest.length + 16 = s.acc.length := by rw [hb, List.length_append, b.2]; omega
      cases f2 with
      | zero => omega
      | succ f2 =>
        simp only [encDrain, hs]
        rw [ih f2 ⟨_, rest⟩ (by simp only; omega) (by simp only; omega)]

theorem encDrain_block (c : Cipher) (key : List Byte) (fuel : Nat) (chain b : Block)
    (rest : List Byte) :
    encDrain c key (fuel + 1) ⟨chain, b.1 ++ rest⟩ =
      ((encryptBlock c key b chain).1 ++
          (encDrain c key fuel ⟨encryptBlock c key b chain, rest⟩).1,
        (encDrain c key fuel ⟨encryptBlock c key b chain, rest⟩).2) := by
  rw [encDrain]
  simp only [takeBlock_block]

theorem encRun_short (c : Cipher) (key : List Byte) (chain : Block) (data : List Byte)
    (h : data.length < 16) : encRun c key chain data = ([], ⟨chain, data⟩) := by
  unfold encRun
  cases hd : data.length with
  | zero => rfl
  | succ n => simp [encDrain, takeBlock_short data h]

theorem encRun_block (c : Cipher) (key : List Byte) (chain b : Block) (rest : List Byte) :
    encRun c key chain (b.1 ++ rest) =
      ((encryptBlock c key b chain).1 ++ (encRun c key (encryptBlock c key b chain) rest).1,
        (encRun c key (encryptBlock c key b chain) rest).2) := by
  unfold encRun
  have hl : (b.1 ++ rest).length = (rest.length + 15) + 1 := by
    rw [List.length_append, b.2]; omega
  rw [hl, encDrain_block,
    encDrain_fuel c key (rest.length + 15) rest.length ⟨_, rest⟩ (by simp) (by simp)]

theorem encRun_append (c : Cipher) (key : List Byte) (chain : Block) (acc more : List Byte) :
    encRun c key chain (acc ++ more) =
      ((encRun c key chain acc).1 ++
          (encRun c key (encRun c key chain acc).2.chain
            ((encRun c key chain acc).2.acc ++ more)).1,
        (encRun c key (encRun c key chain acc).2.chain
          ((encRun c key chain acc).2.acc ++ more)).2) := by
  generalize hn : acc.length = n
  induction n using Nat.strong_induction_on generalizing acc chain with
  | _ n ih =>
    by_cases hlen : acc.length < 16
    · rw [encRun_short c key chain acc hlen]
      simp
    · obtain ⟨b, rest, hb⟩ := split_block acc (by omega)
      have hr : rest.length < n := by
        rw [← hn, hb, List.length_append, b.2]; omega
      subst hb
      rw [List.append_assoc, encRun_block, encRun_block, ih _ hr _ rest rfl]
      simp

theorem encRun_acc_length (c : Cipher) (key : List Byte) (chain : Block) (data : List Byte) :
    (encRun c key chain data).2.acc.length = data.length % 16 := by
  generalize hn : data.length = n
  induction n using Nat.strong_induction_on generalizing data chain with
  | _ n ih =>
    by_cases hlen : data.length < 16
    · rw [encRun_short c key chain data hlen, ← hn]
      simp only
      omega
    · obtain ⟨b, rest, hb⟩ := split_block data (by omega)
      have hl : rest.length + 16 = n := by
        rw [← hn, hb, List.length_append, b.2]; omega
      subst hb
      rw [encRun_block]
      simp only
      rw [ih _ (by omega) _ rest rfl]
      omega

theorem encRun_out_length (c : Cipher) (key : List Byte) (chain : Block) (data : List Byte) :
    (encRun c key chain data).1.length = 16 * (data.length / 16) := by
  generalize hn : data.length = n
  induction n using Nat.strong_induction_on generalizing data chain with
  | _ n ih =>
    by_cases hlen : data.length < 16
    · rw [encRun_short c key chain data hlen, ← hn]
      simp only [List.length_nil]
      omega
    · obtain ⟨b, rest, hb⟩ := split_block data (by omega)
      have hl : rest.length + 16 = n := by
        rw [← hn, hb, List.length_append, b.2]; omega
      subst hb
      rw [encRun_block]
      simp only [List.length_append]
      rw [ih _ (by omega) _ rest rfl, (encryptBlock c key b chain).2]
      omega

theorem encFeedAll_eq (c : Cipher) (key : List Byte) (s : EncState) (src : List (List Byte))
    (hs : s.acc.length < 16) :
    encFeedAll c key s src = encRun c key s.chain (s.acc ++ src.flatten) := by
  induction src generalizing s with
  | nil =>
    simp only [encFeedAll, List.flatten_nil, List.append_nil]
    rw [encRun_short c key s.chain s.acc hs]
  | cons chunk more ih =>
    have hfeed : encFeed c key s chunk = encRun c key s.chain (s.acc ++ chunk) := by
      unfold encFeed encRun
      rw [List.length_append]
    have hacc : (encRun c key s.chain (s.acc ++ chunk)).2.acc.length < 16 := by
      rw [encRun_acc_length]
      omega
    simp only [encFeedAll, List.flatten_cons]
    rw [hfeed, ih _ hacc, ← List.append_assoc, encRun_append c key s.chain (s.acc ++ chunk)]

/-! ### The decryption side -/

theorem decDrain_fuel (c : Cipher) (key : List Byte) (f1 f2 : Nat) (s : DecState)
    (h1 : s.acc.length ≤ f1) (h2 : s.acc.length ≤ f2) :
    decDrain c key f1 s = decDrain c key f2 s := by
  induction f1 generalizing f2 s with
  | zero =>
    have hs : takeBlock s.acc = none := takeBlock_short _ (by omega)
    cases f2 with
    | zero => rfl
    | succ f2 => simp [decDrain, hs]
  | succ f1 ih =>
    by_cases hlen : s.acc.length < 16
    · have hs : takeBlock s.acc = none := takeBlock_short _ hlen
      cases f2 with
      | zero => simp [decDrain, hs]
      | succ f2 => simp [decDrain, hs]
    · obtain ⟨b, rest, hb⟩ := split_block s.acc (by omega)
      have hs : takeBlock s.acc = some (b, rest) := by rw [hb]; exact takeBlock_block b rest
      have hr : rest.length + 16 = s.acc.length := by rw [hb, List.length_append, b.2]; omega
      cases f2 with
      | zero => omega
      | succ f2 =>
        simp only [decDrain, hs]
        rw [ih f2 ⟨_, rest, _⟩ (by simp only; omega) (by simp only; omega)]

theorem decDrain_block (c : Cipher) (key : List Byte) (fuel : Nat) (chain cb : Block)
    (rest : List Byte) (held : Option Block) :
    decDrain c key (fuel + 1) ⟨chain, cb.1 ++ rest, held⟩ =
      (heldBytes held ++
          (decDrain c key fuel ⟨cb, rest, some (decryptBlock c key cb chain)⟩).1,
        (decDrain c key fuel ⟨cb, rest, some (decryptBlock c key cb chain)⟩).2) := by
  rw [decDrain]
  simp only [takeBlock_block]

theorem decRun_short (c : Cipher) (key : List Byte) (chain : Block) (data : List Byte)
    (held : Option Block) (h : data.length < 16) :
    decRun c key chain data held = ([], ⟨chain, data, held⟩) := by
  unfold decRun
  cases hd : data.length with
  | zero => rfl
  | succ n => simp [decDrain, takeBlock_short data h]

theorem decRun_block (c : Cipher) (key : List Byte) (chain cb : Block) (rest : List Byte)
    (held : Option Block) :
    decRun c key chain (cb.1 ++ rest) held =
      (heldBytes held ++ (decRun c key cb rest (some (decryptBlock c key cb chain))).1,
        (decRun c key cb rest (some (decryptBlock c key cb chain))).2) := by
  unfold decRun
  have hl : (cb.1 ++ rest).length = (rest.length + 15) + 1 := by
    rw [List.length_append, cb.2]; omega
  rw [hl, decDrain_block,
    decDrain_fuel c key (rest.length + 15) rest.length ⟨_, rest, _⟩ (by simp) (by simp)]

theorem decRun_append (c : Cipher) (key : List Byte) (chain : Block) (acc more : List Byte)
    (held : Option Block) :
    decRun c key chain (acc ++ more) held =
      ((decRun c key chain acc held).1 ++
          (decRun c key (decRun c key chain acc held).2.chain
            ((decRun c key chain acc held).2.acc ++ more)
            (decRun c key chain acc held).2.held).1,
        (decRun c key (decRun c key chain acc held).2.chain
          ((decRun c key chain acc held).2.acc ++ more)
          (decRun c key chain acc held).2.held).2) := by
  generalize hn : acc.length = n
  induction n using Nat.strong_induction_on generalizing acc chain held with
  | _ n ih =>
    by_cases hlen : acc.length < 16
    · rw [decRun_short c key chain acc held hlen]
      simp
    · obtain ⟨b, rest, hb⟩ := split_block acc (by omega)
      have hr : rest.length < n := by
        rw [← hn, hb, List.length_append, b.2]; omega
      subst hb
      rw [List.append_assoc, decRun_block, decRun_block, ih _ hr _ rest _ rfl]
      simp

theorem decRun_acc_length (c : Cipher) (key : List Byte) (chain : Block) (data : List Byte)
    (held : Option Block) :
    (decRun c key chain data held).2.acc.length = data.length % 16 := by
  generalize hn : data.length = n
  induction n using Nat.strong_induction_on generalizing data chain held with
  | _ n ih =>
    by_cases hlen : data.length < 16
    · rw [decRun_short c key chain data held hlen, ← hn]
      simp only
      omega
    · obtain ⟨b, rest, hb⟩ := split_block data (by omega)
      have hl : rest.length + 16 = n := by
        rw [← hn, hb, List.length_append, b.2]; omega
      subst hb
      rw [decRun_block]
      simp only
      rw [ih _ (by omega) _ rest _ rfl]
      omega

theorem decFeedAll_streaming (c : Cipher) (key : List Byte) (s : DecState)
    (src : List (List Byte)) (hs : s.acc.length < 16) :
    decFeedAll c key (.streaming s) src =
      ((decRun c key s.chain (s.acc ++ src.flatten) s.held).1,
        .streaming (decRun c key s.chain (s.acc ++ src.flatten) s.held).2) := by
  induction src generalizing s with
  | nil =>
    simp only [decFeedAll, List.flatten_nil, List.append_nil]
    rw [decRun_short c key s.chain s.acc s.held hs]
  | cons chunk more ih =>
    have hfeed : decFeed c key (.streaming s) chunk =
        ((decRun c key s.chain (s.acc ++ chunk) s.held).1,
          .streaming (decRun c key s.chain (s.acc ++ chunk) s.held).2) := by
      unfold decFeed decRun
      rw [List.length_append]
    have hacc : (decRun c key s.chain (s.acc ++ chunk) s.held).2.acc.length < 16 := by
      rw [decRun_acc_length]
      omega
    simp only [decFeedAll, List.flatten_cons]
    rw [hfeed]
    simp only
    rw [ih _ hacc, ← List.append_assoc, decRun_append c key s.chain (s.acc ++ chunk)]

theorem decFeedAll_init (c : Cipher) (key : List Byte) (buf : List Byte)
    (src : List (List Byte)) (iv : Block) (body : List Byte) (hbuf : buf.length < 16)
    (h : buf ++ src.flatten = iv.1 ++ body) :
    decFeedAll c key (.init buf) src =
      ((decRun c key iv body none).1, .streaming (decRun c key iv body none).2) := by
  induction src generalizing buf with
  | nil =>
    exfalso
    have := congrArg List.length h
    simp only [List.flatten_nil, List.append_nil, List.length_append, iv.2] at this
    omega
  | cons chunk more ih =>
    simp only [decFeedAll, List.flatten_cons]
    by_cases hlen : (buf ++ chunk).length < 16
    · have hfeed : decFeed c key (.init buf) chunk = ([], .init (buf ++ chunk)) := by
        simp only [decFeed, takeBlock_short _ hlen]
      rw [hfeed]
      simp only [List.nil_append]
      exact ih (buf ++ chunk) hlen (by rw [List.append_assoc]; simpa using h)
    · obtain ⟨b, rest, hb⟩ := split_block (buf ++ chunk) (by omega)
      have hall : iv.1 ++ body = b.1 ++ (rest ++ more.flatten) := by
        rw [← h, List.flatten_cons, ← List.append_assoc, hb, List.append_assoc]
      have hiv : iv = b := by
        apply Subtype.ext
        have := congrArg (List.take 16) hall
        rwa [List.take_left' iv.2, List.take_left' b.2] at this
      have hbody : body = rest ++ more.flatten := by
        have := congrArg (List.drop 16) hall
        rwa [List.drop_left' iv.2, List.drop_left' b.2] at this
      have hfeed : decFeed c key (.init buf) chunk =
          ((decRun c key b rest none).1, .streaming (decRun c key b rest none).2) := by
        simp only [decFeed, hb, takeBlock_block]
        rfl
      have hacc : (decRun c key b rest none).2.acc.length < 16 := by
        rw [decRun_acc_length]
        omega
      rw [hfeed]
      simp only
      rw [decFeedAll_streaming c key _ more hacc, hiv, hbody, decRun_append c key b rest]

/-! ### Chaining: decryption inverts encryption -/

theorem cbc_inverse (c : Cipher) (key : List Byte)
    (hinv : ∀ b, c.decrypt key (c.encrypt key b) = b)
    (chain : Block) (data : List Byte) (held : Option Block) (hd : data.length % 16 = 0) :
    (decRun c key chain (encRun c key chain data).1 held).1 ++
        heldBytes (decRun c key chain (encRun c key chain data).1 held).2.held =
      heldBytes held ++ data ∧
    (decRun c key chain (encRun c key chain data).1 held).2.acc = [] ∧
    (data ≠ [] → ∃ b, (decRun c key chain (encRun c key chain data).1 held).2.held = some b) := by
  generalize hn : data.length = n
  induction n using Nat.strong_induction_on generalizing data chain held with
  | _ n ih =>
    by_cases hlen : data.length < 16
    · have hnil : data = [] := List.length_eq_zero.mp (by omega)
      subst hnil
      rw [encRun_short c key chain [] (by simp), decRun_short c key chain [] held (by simp)]
      simp
    · obtain ⟨b, rest, hb⟩ := split_block data (by omega)
      have hl : rest.length + 16 = n := by
        rw [← hn, hb, List.length_append, b.2]; omega
      subst hb
      have hrest : rest.length % 16 = 0 := by
        rw [List.length_append, b.2] at hd; omega
      obtain ⟨h1, h2, h3⟩ := ih rest.length (by omega) (encryptBlock c key b chain) rest
        (some b) hrest rfl
      rw [encRun_block]
      simp only
      rw [decRun_block, decryptBlock_encryptBlock c key hinv]
      simp only
      refine ⟨?_, h2, fun _ => ?_⟩
      · rw [List.append_assoc, h1]
        simp [heldBytes]
      · by_cases hr : rest = []
        · subst hr
          rw [encRun_short c key _ [] (by simp)]
          simp only
          rw [decRun_short c key _ [] _ (by simp)]
          exact ⟨b, rfl⟩
        · exact h3 hr

/-! ### Padding -/

theorem padValue_lt (n : Nat) (h : n < 16) : padValue n = 16 - n := by
  unfold padValue
  split <;> omega

theorem getLastD_append_replicate (rest : List Byte) (p : Nat) (v d : Byte) (hp : 1 ≤ p) :
    (rest ++ List.replicate p v).getLastD d = v := by
  obtain ⟨q, rfl⟩ : ∃ q, p = q + 1 := ⟨p - 1, by omega⟩
  rw [List.replicate_succ', ← List.append_assoc, List.getLastD_concat]

theorem unpad_pad (b : Block) (rest : List Byte) (p : Nat) (hp1 : 1 ≤ p) (hp2 : p ≤ 16)
    (hb : b.1 = rest ++ List.replicate p (Fin.ofNat p)) : unpad b = .ok rest := by
  have hv : (Fin.ofNat p : Byte).val = p := by
    show p % 256 = p
    omega
  have hrest : rest.length = 16 - p := by
    have := b.2
    rw [hb, List.length_append, List.length_replicate] at this
    omega
  have hlast : (b.1.getLastD 0).val = p := by
    rw [hb, getLastD_append_replicate rest p _ 0 hp1, hv]
  have hdrop : b.1.drop (16 - p) = List.replicate p (Fin.ofNat p) := by
    rw [hb]
    exact List.drop_left' hrest
  have htake : b.1.take (16 - p) = rest := by
    rw [hb]
    exact List.take_left' hrest
  unfold unpad
  simp only [hlast]
  rw [if_neg (by omega), hdrop, htake]
  have hall : (List.replicate p (Fin.ofNat p : Byte)).all (fun x => x.val == p) = true := by
    rw [List.all_eq_true]
    intro x hx
    rw [List.eq_of_mem_replicate hx, hv]
    simp
  rw [if_pos hall]

theorem append_suffix_split (l1 l2 l3 l4 : List Byte) (h : l1 ++ l2 = l3 ++ l4)
    (hlen : l4.length ≤ l2.length) : ∃ r, l2 = r ++ l4 ∧ l3 = l1 ++ r := by
  rcases List.append_eq_append_iff.mp h with ⟨a, h1, h2⟩ | ⟨a, h1, h2⟩
  · exact ⟨a, h2, h1⟩
  · have ha : a = [] := by
      have := congrArg List.length h2
      rw [List.length_append] at this
      exact List.length_eq_zero.mp (by omega)
    subst ha
    exact ⟨[], by simpa using h2.symm, by simpa using h1.symm⟩

/-! ### `Encrypter` and `Decrypter` -/

theorem Encrypter_eq (c : Cipher) (key : List Byte) (hk : validKey key) (iv : Option Block)
    (rnd : Block) (src : List (List Byte)) :
    Encrypter c key iv rnd src =
      ⟨(iv.getD rnd).1 ++ (encRun c key (iv.getD rnd)
        (src.flatten ++ List.replicate (padValue (src.flatten.length % 16))
          (Fin.ofNat (padValue (src.flatten.length % 16))))).1, none⟩ := by
  have hfeed := encFeedAll_eq c key ⟨iv.getD rnd, []⟩ src (by simp)
  simp only [List.nil_append] at hfeed
  have hacc := encRun_acc_length c key (iv.getD rnd) src.flatten
  simp only [Encrypter, if_pos hk, hfeed, encFinish, pad, hacc]
  rw [encRun_append c key (iv.getD rnd) src.flatten, List.append_assoc]
  simp only [encRun, hacc, List.length_append, List.length_replicate]

theorem padded_length (n : Nat) :
    (n + padValue (n % 16)) % 16 = 0 ∧ n + padValue (n % 16) = 16 * ((n + 1 + 15) / 16) := by
  have h := padValue_lt (n % 16) (Nat.mod_lt _ (by norm_num))
  rw [h]
  omega

theorem Encrypter_length (c : Cipher) (key : List Byte) (hk : validKey key) (iv : Option Block)
    (rnd : Block) (src : List (List Byte)) :
    (Encrypter c key iv rnd src).bytes.length =
      16 + (src.flatten.length + padValue (src.flatten.length % 16)) := by
  rw [Encrypter_eq c key hk]
  simp only [List.length_append, (iv.getD rnd).2, encRun_out_length, List.length_replicate]
  have := (padded_length src.flatten.length).1
  omega

theorem Decrypter_Encrypter (c : Cipher) (key : List Byte)
    (hinv : ∀ b, c.decrypt key (c.encrypt key b) = b) (hk : validKey key)
    (iv : Option Block) (rnd : Block) (src csrc : List (List Byte))
    (hc : csrc.flatten = (Encrypter c key iv rnd src).bytes) :
    Decrypter c key csrc = ⟨src.flatten, none⟩ := by
  rw [Encrypter_eq c key hk] at hc
  simp only at hc
  generalize hpv : padValue (src.flatten.length % 16) = p at hc
  have hp := padValue_lt (src.flatten.length % 16) (Nat.mod_lt _ (by norm_num))
  rw [hpv] at hp
  have hmod : src.flatten.length % 16 < 16 := Nat.mod_lt _ (by norm_num)
  have hdata : (src.flatten ++ List.replicate p (Fin.ofNat p : Byte)).length % 16 = 0 := by
    rw [List.length_append, List.length_replicate]
    omega
  have hne : src.flatten ++ List.replicate p (Fin.ofNat p : Byte) ≠ [] := by
    intro h
    have := congrArg List.length h
    rw [List.length_append, List.length_replicate] at this
    simp only [List.length_nil] at this
    omega
  obtain ⟨h1, h2, h3⟩ := cbc_inverse c key hinv (iv.getD rnd)
    (src.flatten ++ List.replicate p (Fin.ofNat p)) none hdata
  obtain ⟨b, hb⟩ := h3 hne
  have hfeed := decFeedAll_init c key [] csrc (iv.getD rnd) _ (by simp)
    (by rw [List.nil_append]; exact hc)
  rw [hb] at h1
  simp only [heldBytes, List.nil_append] at h1
  obtain ⟨rest, hr1, hr2⟩ := append_suffix_split _ _ _ _ h1
    (by rw [List.length_replicate, b.2]; omega)
  have hun : unpad b = .ok rest := unpad_pad b rest p (by omega) (by omega) hr1
  simp only [Decrypter, if_pos hk, hfeed, decFinish, h2, hb, hun, ne_eq, not_true_eq_false,
    if_false]
  rw [← hr2]

theorem ceil_sixteenth (n : Nat) : ⌈((n : ℚ) + 1) / 16⌉₊ = (n + 1 + 15) / 16 := by
  have hk : (n + 1 + 15) / 16 ≠ 0 := by omega
  rw [Nat.ceil_eq_iff hk]
  have h1 : 16 * ((n + 1 + 15) / 16 - 1) < n + 1 := by omega
  have h2 : n + 1 ≤ 16 * ((n + 1 + 15) / 16) := by omega
  constructor
  · rw [lt_div_iff₀ (by norm_num)]
    have : ((16 * ((n + 1 + 15) / 16 - 1) : Nat) : ℚ) < ((n + 1 : Nat) : ℚ) := by
      exact_mod_cast h1
    push_cast at this
    linarith
  · rw [div_le_iff₀ (by norm_num)]
    have : ((n + 1 : Nat) : ℚ) ≤ ((16 * ((n + 1 + 15) / 16) : Nat) : ℚ) := by
      exact_mod_cast h2
    push_cast at this
    linarith

/-- C1: for every key of length 16, 24 or 32, every IV, given or generated,
and every plaintext, delivered in any chunks, `Encrypter` ends without error
and its output depends on the plaintext bytes only, not on the chunks; and
`Decrypter` over the ciphertext, delivered in any chunks, ends without error
and yields exactly the plaintext bytes. The only assumption is that the
decrypt of the block cipher inverts its encrypt under that key. -/
theorem decrypter_encrypter_roundtrip (c : Cipher) (key : List Byte)
    (hinv : ∀ b, c.decrypt key (c.encrypt key b) = b) (hk : validKey key)
    (iv : Option Block) (rnd : Block) (src csrc : List (List Byte))
    (hc : csrc.flatten = (Encrypter c key iv rnd src).bytes) :
    (Encrypter c key iv rnd src).err = none ∧
    Encrypter c key iv rnd src = Encrypter c key iv rnd [src.flatten] ∧
    Decrypter c key csrc = ⟨src.flatten, none⟩ := by
  refine ⟨?_, ?_, Decrypter_Encrypter c key hinv hk iv rnd src csrc hc⟩
  · rw [Encrypter_eq c key hk]
  · rw [Encrypter_eq c key hk, Encrypter_eq c key hk]
    simp

/-- Witness of C1: the test key `key128`, a generated IV of zero bytes, the
plaintext 1, 2, 3, 4, 5 delivered as 1, 2, 3 and 4, 5, and the 32 bytes of
ciphertext delivered in chunks of 3, 13, 1, 0 and 15 bytes. -/
theorem decrypter_encrypter_roundtrip_witness :
    (∀ b, idCipher.decrypt key128 (idCipher.encrypt key128 b) = b) ∧ validKey key128 ∧
    [[0, 0, 0], [0, 0, 0, 0, 0, 0, 0, 0, 0, 0, 0, 0, 0], [1], [],
        [2, 3, 4, 5, 11, 11, 11, 11, 11, 11, 11, 11, 11, 11, 11]].flatten =
      (Encrypter idCipher key128 none ⟨List.replicate 16 0, rfl⟩ [[1, 2, 3], [4, 5]]).bytes ∧
    Decrypter idCipher key128
        [[0, 0, 0], [0, 0, 0, 0, 0, 0, 0, 0, 0, 0, 0, 0, 0], [1], [],
          [2, 3, 4, 5, 11, 11, 11, 11, 11, 11, 11, 11, 11, 11, 11]] =
      ⟨[1, 2, 3, 4, 5], none⟩ :=
  ⟨fun _ => rfl, by decide, by decide,
    (decrypter_encrypter_roundtrip idCipher key128 (fun _ => rfl) (by decide) none
      ⟨List.replicate 16 0, rfl⟩ [[1, 2, 3], [4, 5]] _ (by decide)).2.2⟩

/-- C7: for every key of length 16, 24 or 32, every IV and every plaintext of
`n` bytes the ciphertext stream of `Encrypter` has `16 + 16*ceil((n+1)/16)`
bytes; that is `16 + n + p` for the padding length `p = 16 - n mod 16`, which
is the padding value of the codec and lies in 1..16; the length is a multiple
of 16 and at least 32, and a plaintext of a multiple of 16 bytes gains a full
block. -/
theorem encrypter_length_formula (c : Cipher) (key : List Byte) (hk : validKey key)
    (iv : Option Block) (rnd : Block) (src : List (List Byte)) :
    (Encrypter c key iv rnd src).bytes.length =
      16 + 16 * ⌈((src.flatten.length : ℚ) + 1) / 16⌉₊ ∧
    (Encrypter c key iv rnd src).bytes.length =
      16 + 16 * ((src.flatten.length + 1 + 15) / 16) ∧
    (Encrypter c key iv rnd src).bytes.length =
      16 + src.flatten.length + (16 - src.flatten.length % 16) ∧
    padValue (src.flatten.length % 16) = 16 - src.flatten.length % 16 ∧
    1 ≤ 16 - src.flatten.length % 16 ∧ 16 - src.flatten.length % 16 ≤ 16 ∧
    (Encrypter c key iv rnd src).bytes.length % 16 = 0 ∧
    32 ≤ (Encrypter c key iv rnd src).bytes.length ∧
    (src.flatten.length % 16 = 0 →
      (Encrypter c key iv rnd src).bytes.length = 16 + src.flatten.length + 16) := by
  have hlen := Encrypter_length c key hk iv rnd src
  have hp := padValue_lt (src.flatten.length % 16) (Nat.mod_lt _ (by norm_num))
  have hpad := padded_length src.flatten.length
  rw [ceil_sixteenth]
  refine ⟨?_, ?_, ?_, hp, ?_, ?_, ?_, ?_, ?_⟩ <;> omega

/-- Witness of C7: under the test key `key128` the three plaintext bytes
1, 2, 3 give 32 bytes of ciphertext. -/
theorem encrypter_length_formula_witness :
    validKey key128 ∧
    (Encrypter idCipher key128 none ⟨List.replicate 16 0, rfl⟩ [[1, 2, 3]]).bytes.length =
      16 + 16 * ((([[1, 2, 3]] : List (List Byte)).flatten.length + 1 + 15) / 16) :=
  ⟨by decide, (encrypter_length_formula idCipher key128 (by decide) none
    ⟨List.replicate 16 0, rfl⟩ [[1, 2, 3]]).2.1⟩

end Cryptstream
